import Mathlib

/-!
Shallow embedding of the archive synchronization engine of this repository:
the scripts `scripts/download_isd_csv.py` (ISD CSV download, verification,
extraction, orchestration and cleanup) and `scripts/extract_gsod_safely.py`
(streaming GSOD extraction with per-member path safety).

Python strings are modelled as lists of characters (`PyStr`).  The POSIX
path functions the scripts use (`os.path.join`, `os.path.dirname`,
`os.path.realpath`, `os.path.abspath`, `os.path.commonpath`) are modelled
character-faithfully on a filesystem without symbolic links, so that
`os.path.realpath` coincides with lexical resolution of `.` and `..`
segments (`os.path.abspath` performs exactly that lexical resolution).
The filesystem is a finite map from canonical absolute paths (component
lists) to file data, plus a set of directories.  The POSIX quirk that a
path beginning with exactly two slashes keeps both is not modelled.
-/

/-- A Python string: a list of characters. -/
abbrev PyStr := List Char

/-- Coerce a Lean string literal to the `PyStr` model. -/
def pys (s : String) : PyStr := s.toList

/-- `s.startswith(pre)` on Python strings. -/
def startsWithP (s pre : PyStr) : Bool := pre.isPrefixOf s

/-- `s.lstrip("/")`: drop leading separator characters
    (`extract_gsod_safely.py` line 26, applied to tar member names). -/
def lstripSlash (s : PyStr) : PyStr := s.dropWhile (fun c => c = '/')

/-- The test `os.path.join` uses for an absolute second argument:
    the path begins with `'/'`. -/
def isAbsP : PyStr → Bool
  | [] => false
  | c :: _ => c = '/'

/-- `os.path.join(a, b)` (POSIX): an absolute `b` replaces `a`; otherwise
    `b` is appended to `a`, inserting a separator unless `a` is empty or
    already ends with one. -/
def joinP (a b : PyStr) : PyStr :=
  if isAbsP b then b
  else if a = [] then b
  else if a.getLast? = some '/' then a ++ b
  else a ++ '/' :: b

/-- Split a path string at every `'/'`, keeping empty pieces — the
    splitting underlying `normpath`, `realpath` and `commonpath`. -/
def splitK : PyStr → List PyStr
  | [] => [[]]
  | c :: cs =>
    if c = '/' then [] :: splitK cs
    else
      match splitK cs with
      | [] => [[c]]
      | p :: ps => (c :: p) :: ps

/-- Stack-based lexical resolution of path components: empty and `.`
    components are dropped, `..` pops the stack (a no-op at the root),
    anything else is pushed.  The first argument is the stack in reverse
    order. -/
def ndGo : List PyStr → List PyStr → List PyStr
  | st, [] => st
  | st, c :: cs =>
    if c = [] ∨ c = ['.'] then ndGo st cs
    else if c = ['.', '.'] then ndGo st.tail cs
    else ndGo (c :: st) cs

/-- Resolve `.`, `..` and empty components of a component list. -/
def resolveDots (l : List PyStr) : List PyStr := (ndGo [] l).reverse

/-- `os.path.realpath(s)` relative to the canonical current directory
    `cwd`, in a filesystem without symbolic links: lexical resolution of
    the absolute form of `s`, as a canonical component list. -/
def realpathC (cwd : List PyStr) (s : PyStr) : List PyStr :=
  resolveDots ((if isAbsP s then [] else cwd) ++ splitK s)

/-- `os.path.abspath(s)` relative to `cwd`: `normpath(join(cwd, s))`,
    which is the same lexical resolution (no symbolic links involved). -/
def abspathC (cwd : List PyStr) (s : PyStr) : List PyStr :=
  resolveDots ((if isAbsP s then [] else cwd) ++ splitK s)

/-- Join canonical components back with `'/'` (the string
    `"/".join(comps)`). -/
def joinComps : List PyStr → PyStr
  | [] => []
  | [c] => c
  | c :: cs => c ++ '/' :: joinComps cs

/-- Render a canonical absolute component list as the path string
    `os.path.realpath` returns: `"/"` for the root, otherwise
    `"/" + "/".join(comps)`. -/
def renderP (l : List PyStr) : PyStr := '/' :: joinComps l

/-- `is_safe_path(basedir, path)` from `extract_gsod_safely.py` lines
    13-15: `os.path.realpath(path).startswith(os.path.realpath(basedir)
    + os.sep)`. -/
def is_safe_path (cwd : List PyStr) (basedir path : PyStr) : Bool :=
  startsWithP (renderP (realpathC cwd path)) (renderP (realpathC cwd basedir) ++ ['/'])

/-- Longest common component run of two canonical absolute component
    lists — `os.path.commonpath` on two already-normalized absolute
    paths. -/
def commonPfxC : List PyStr → List PyStr → List PyStr
  | [], _ => []
  | _, [] => []
  | x :: xs, y :: ys => if x = y then x :: commonPfxC xs ys else []

/-- `is_within_directory(directory, target)` from `download_isd_csv.py`
    lines 165-168: `os.path.commonpath([abs_directory]) ==
    os.path.commonpath([abs_directory, abs_target])` where both paths
    went through `os.path.abspath`.  `commonpath` of a singleton list of
    a normalized absolute path is that path; of a pair it is the longest
    common component run; the comparison is string equality of the
    rendered paths. -/
def is_within_directory (cwd : List PyStr) (directory target : PyStr) : Bool :=
  let d := abspathC cwd directory
  let t := abspathC cwd target
  renderP d == renderP (commonPfxC d t)

/-- Split a string at its last `'/'`: `some (a, b)` with
    `s = a ++ '/' :: b` and no `'/'` in `b`, or `none` when `s` has no
    separator. -/
def lastSlashSplit : PyStr → Option (PyStr × PyStr)
  | [] => none
  | c :: cs =>
    match lastSlashSplit cs with
    | some (a, b) => some (c :: a, b)
    | none => if c = '/' then some ([], cs) else none

/-- Drop trailing `'/'` characters (`rstrip("/")`). -/
def rstripSlash (s : PyStr) : PyStr := (s.reverse.dropWhile (fun c => c = '/')).reverse

/-- `os.path.dirname(s)` (POSIX): everything up to and including the last
    separator; that head is kept verbatim when it consists only of
    separators and is stripped of trailing separators otherwise; a string
    without separators has dirname `""`. -/
def dirnameP (s : PyStr) : PyStr :=
  match lastSlashSplit s with
  | none => []
  | some (a, _) =>
    if (a ++ ['/']).all (fun c => c = '/') then a ++ ['/']
    else rstripSlash a

/-- Decimal rendering of a natural number, as produced by Python string
    interpolation of the year. -/
def digitCh (d : Nat) : Char := Char.ofNat (48 + d)

/-- Decimal digits with explicit fuel (structural recursion so that the
    kernel can evaluate it). -/
def natCharsGo : Nat → Nat → PyStr
  | 0, _ => []
  | fuel + 1, n => if n < 10 then [digitCh n] else natCharsGo fuel (n / 10) ++ [digitCh (n % 10)]

/-- Decimal digits of `n` (the f-string `{year}`). -/
def natChars (n : Nat) : PyStr := natCharsGo (n + 1) n

example : pys "ab/c" = ['a', 'b', '/', 'c'] := rfl
example : splitK (pys "/a//b") = [pys "", pys "a", pys "", pys "b"] := rfl
example : resolveDots [pys "a", pys "..", pys "b", pys "."] = [pys "b"] := rfl
example : realpathC [] (pys "/data/out/../x") = [pys "data", pys "x"] := rfl
example : renderP [pys "a", pys "b"] = pys "/a/b" := rfl
example : is_safe_path [] (pys "/data/out") (pys "/data/out/f.csv") = true := by decide
example : is_safe_path [] (pys "/data/out") (pys "/data/out") = false := by decide
example : is_safe_path [] (pys "/data/out") (pys "/data/out/../evil") = false := by decide
example : is_within_directory [] (pys "/d/y") (pys "/d/y") = true := by decide
example : is_within_directory [] (pys "/d/y") (pys "/d/y/../z") = false := by decide
example : dirnameP (pys "/a/b") = pys "/a" := rfl
example : dirnameP (pys "/a") = pys "/" := rfl
example : dirnameP (pys "a") = pys "" := rfl
example : dirnameP (pys "/a/b//") = pys "/a/b" := rfl
example : joinP (pys "/a") (pys "b/c") = pys "/a/b/c" := rfl
example : joinP (pys "/a") (pys "/etc") = pys "/etc" := rfl
example : natChars 1998 = pys "1998" := rfl
example : dirnameP (pys "//") = pys "//" := rfl

/-! ## Filesystem and archive model -/

/-- Kind of a tar member: regular file, directory, or anything else
    (symlink, device, ...). -/
inductive MKind
  | reg
  | dir
  | other
deriving DecidableEq

/-- A tar archive member: its stored name, kind and size.  Permission
    bits are not modelled (`safe_extract` copies them on a best-effort
    basis with failures ignored, so they are unobservable here). -/
structure TarMember where
  name : PyStr
  kind : MKind
  size : Nat
deriving DecidableEq

/-- Contents of one file.  `tarView` is the structure seen when the file
    is opened with `tarfile.open(path, "r:gz")`: `none` models a file
    whose open or member-table read raises (truncated or malformed
    archive), `some ms` a well-formed archive whose members are `ms` in
    order. -/
structure FileData where
  size : Nat
  tarView : Option (List TarMember)
deriving DecidableEq

/-- The filesystem: a finite map from canonical absolute paths
    (component lists) to file data, plus the set of existing
    directories. -/
structure FS where
  files : List (List PyStr × FileData)
  dirs : List (List PyStr)
deriving DecidableEq

/-- Look up the file at canonical path `p`. -/
def lookupFile (fs : FS) (p : List PyStr) : Option FileData :=
  (fs.files.find? (fun e => decide (e.1 = p))).map (fun e => e.2)

/-- Create or overwrite the file at canonical path `p`. -/
def setFile (fs : FS) (p : List PyStr) (fd : FileData) : FS :=
  { fs with files := (p, fd) :: fs.files.filter (fun e => decide (e.1 ≠ p)) }

/-- Delete the file at canonical path `p` (`os.remove` / the removal half
    of `os.replace`). -/
def removeFile (fs : FS) (p : List PyStr) : FS :=
  { fs with files := fs.files.filter (fun e => decide (e.1 ≠ p)) }

/-- `os.makedirs(p, exist_ok=True)`: create every missing ancestor of
    `p` (inclusive). -/
def mkdirs (fs : FS) (p : List PyStr) : FS :=
  { fs with dirs := fs.dirs ++ p.inits.filter (fun q => decide (q ∉ fs.dirs)) }

/-- `os.path.exists` at a canonical path. -/
def existsP (fs : FS) (p : List PyStr) : Bool :=
  (lookupFile fs p).isSome || decide (p ∈ fs.dirs)

/-- The entry name if `k` is a direct child of directory `d`. -/
def childOf? (d k : List PyStr) : Option PyStr :=
  if k.take d.length = d then
    match k.drop d.length with
    | [x] => some x
    | _ => none
  else none

/-- `os.listdir(d)`: names of the direct children (files and
    directories) of `d`, without duplicates. -/
def childNames (fs : FS) (d : List PyStr) : List PyStr :=
  ((fs.files.map (fun e => e.1) ++ fs.dirs).filterMap (childOf? d)).dedup

/-- `any(os.scandir(d))`: the directory has at least one entry. -/
def hasChildren (fs : FS) (d : List PyStr) : Bool :=
  decide (childNames fs d ≠ [])

/-- `s.endswith(suf)`. -/
def endsWithP (s suf : PyStr) : Bool := suf.isSuffixOf s

/-- `len([p for p in os.listdir(d) if p.endswith(".csv")])`. -/
def csvCount (fs : FS) (d : List PyStr) : Nat :=
  ((childNames fs d).filter (fun n => endsWithP n (pys ".csv"))).length

/-! ## `safe_extract` (`extract_gsod_safely.py` lines 17-67)

One fold step per tar member, carrying the filesystem and the counters
the function returns, plus the list of member names logged as unsafe
(the `[WARN] Skip unsafe path` lines).  The `src is None` branch of the
source is unreachable for regular-file members and is not modelled; the
`os.chmod` call only copies permission bits (ignored here) and its
failure is explicitly swallowed. -/

/-- State threaded through `safe_extract`: filesystem, `count`,
    `skipped`, and the names warned about. -/
structure ExtractSt where
  fs : FS
  count : Nat
  skipped : Nat
  warned : List PyStr
deriving DecidableEq

/-- The body of the `for m in tar` loop of `safe_extract`. -/
def extractStep (cwd : List PyStr) (out_dir : PyStr) (st : ExtractSt) (m : TarMember) :
    ExtractSt :=
  if m.kind = MKind.other then st
  else
    let target := joinP out_dir (lstripSlash m.name)
    if ¬ is_safe_path cwd out_dir target then
      { st with warned := st.warned ++ [m.name] }
    else if m.kind = MKind.dir then
      { st with fs := mkdirs st.fs (realpathC cwd target) }
    else if (lookupFile st.fs (realpathC cwd target)).map (fun fd => fd.size) = some m.size then
      { st with skipped := st.skipped + 1 }
    else
      let fs1 := mkdirs st.fs (realpathC cwd (dirnameP target))
      { st with
          fs := setFile fs1 (realpathC cwd target) ⟨m.size, none⟩
          count := st.count + 1 }

/-- `safe_extract(tar, out_dir)`: fold the loop body over the members. -/
def safe_extract (cwd : List PyStr) (fs : FS) (members : List TarMember) (out_dir : PyStr) :
    ExtractSt :=
  members.foldl (extractStep cwd out_dir) ⟨fs, 0, 0, []⟩

/-! ## `extract_year_tar` (`download_isd_csv.py` lines 153-179) -/

deriving instance DecidableEq for Except

/-- Result of `extract_year_tar`: the filesystem, and either the CSV
    count or the message of the exception raised. -/
structure YearRes where
  yfs : FS
  out : Except PyStr Nat
deriving DecidableEq

/-- Effect of `tar.extractall(year_dir)` for one member (directory
    members create the directory, regular members are written with their
    parents created; other member kinds are not modelled as the claims
    never reach them past the safety loop). -/
def tarWriteMember (cwd : List PyStr) (year_dir : PyStr) (fs : FS) (m : TarMember) : FS :=
  match m.kind with
  | MKind.dir => mkdirs fs (realpathC cwd (joinP year_dir m.name))
  | MKind.reg =>
    setFile (mkdirs fs (realpathC cwd (dirnameP (joinP year_dir m.name))))
      (realpathC cwd (joinP year_dir m.name)) ⟨m.size, none⟩
  | MKind.other => fs

/-- The message of the exception `extract_year_tar` raises on a path
    traversal attempt. -/
def unsafeMsg (n : PyStr) : PyStr := pys "Unsafe path in tar: " ++ n

/-- Stage of `extract_year_tar` after the safety loop: either the first
    unsafe member was found (raise before anything is extracted) or
    `tar.extractall(year_dir)` runs and the CSVs are counted. -/
def yearCheck (cwd : List PyStr) (year_dir : PyStr) (fs1 : FS) (ms : List TarMember) :
    Option TarMember → YearRes
  | some m => ⟨fs1, Except.error (unsafeMsg m.name)⟩
  | none =>
    let fs2 := ms.foldl (tarWriteMember cwd year_dir) fs1
    ⟨fs2, Except.ok (csvCount fs2 (realpathC cwd year_dir))⟩

/-- Stage of `extract_year_tar` after `tarfile.open`: an exception while
    opening maps to the error result, otherwise the member safety loop
    runs. -/
def yearOpen (cwd : List PyStr) (year_dir : PyStr) (fs1 : FS) :
    Option (List TarMember) → YearRes
  | none => ⟨fs1, Except.error (pys "tarfile open failed")⟩
  | some ms =>
    yearCheck cwd year_dir fs1 ms
      (ms.find? (fun m => ! is_within_directory cwd year_dir (joinP year_dir m.name)))

/-- `extract_year_tar(tar_path, year_dir)`: create `year_dir`; if it
    already has any entry, short-circuit to the CSV count; otherwise open
    the archive, check every member with `is_within_directory` (raising
    on the first unsafe one, before anything is extracted), extract all
    members, and count the CSVs. -/
def extract_year_tar (cwd : List PyStr) (fs : FS) (tar_path year_dir : PyStr) : YearRes :=
  let yd := realpathC cwd year_dir
  let fs1 := mkdirs fs yd
  if hasChildren fs1 yd then
    ⟨fs1, Except.ok (csvCount fs1 yd)⟩
  else
    yearOpen cwd year_dir fs1 ((lookupFile fs1 (realpathC cwd tar_path)).bind (fun fd => fd.tarView))

/-! ## `download_with_resume` (`download_isd_csv.py` lines 105-141)

The remote server is modelled by its observable behavior: the outcome of
the HEAD probe, and the GET response as a function of the `Range` offset
the code sends.  A GET outcome is either a request failure
(`raise_for_status` or connection error, before the partial file is
opened), or a stream of chunk sizes together with a flag saying whether
the stream ended normally (`complete = true`) or raised mid-transfer
after delivering exactly those chunks.  `servedView` is the archive
structure of the fully served content; a file produced by an interrupted
stream gets a corrupt view. -/

/-- Outcome of the HEAD probe: the `Content-Length` and `Accept-Ranges`
    headers, each possibly absent. -/
structure HeadR where
  contentLength : Option Nat
  acceptRanges : Option PyStr
deriving DecidableEq

/-- Outcome of the GET request. -/
inductive GetR
  | fail
  | stream (chunks : List Nat) (complete : Bool)
deriving DecidableEq

/-- The remote server, as observed by one fetch. -/
structure Server where
  headOk : Option HeadR
  body : Option Nat → GetR
  servedView : Option (List TarMember)

/-- Failure classes of `download_with_resume`: HEAD raised, GET raised,
    the body stream raised mid-transfer, or the final
    `Incomplete download` IOError. -/
inductive DErr
  | headFail
  | getFail
  | streamFail
  | incomplete
deriving DecidableEq

/-- The header value defaulted by `head.headers.get("Accept-Ranges", "none")`. -/
def noneStr : PyStr := pys "none"

/-- The streaming phase of `download_with_resume`: a failed GET raises;
    otherwise the partial file is opened (`wb` truncating to the resume
    base `0`, `ab` keeping `base` bytes) after its parent directory is
    created, the delivered chunks are appended, a mid-stream exception
    leaves the partial file and raises, an end of stream with fewer than
    `total` bytes raises `Incomplete download`, and otherwise
    `os.replace` atomically publishes the partial file as the
    destination. -/
def dlStream (cwd : List PyStr) (dest_path tmp_path : PyStr) (base total : Nat)
    (view0 : Option (List TarMember)) (fs : FS) : GetR → FS × Except DErr Unit
  | GetR.fail => (fs, Except.error DErr.getFail)
  | GetR.stream chunks complete =>
    let fs1 := mkdirs fs (realpathC cwd (dirnameP tmp_path))
    let written := base + chunks.foldl (fun a b => a + b) 0
    let view := if complete then view0 else none
    let fs2 := setFile fs1 (realpathC cwd tmp_path) ⟨written, view⟩
    if ¬ complete then (fs2, Except.error DErr.streamFail)
    else if total ≠ 0 ∧ written < total then (fs2, Except.error DErr.incomplete)
    else
      (setFile (removeFile fs2 (realpathC cwd tmp_path)) (realpathC cwd dest_path)
        ⟨written, view⟩, Except.ok ())

/-- The probe phase of `download_with_resume`: a failed HEAD raises;
    otherwise `total` and `Accept-Ranges` are read (defaulting to `0` and
    `"none"`), the resume base is reset to `0` when ranges are
    unsupported, and the GET is issued — with the `Range` header set
    whenever a partial file existed, even in the non-resuming case. -/
def dlHead (cwd : List PyStr) (srv : Server) (dest_path tmp_path : PyStr) (downloaded0 : Nat)
    (fs : FS) : Option HeadR → FS × Except DErr Unit
  | none => (fs, Except.error DErr.headFail)
  | some h =>
    dlStream cwd dest_path tmp_path
      (if downloaded0 > 0 ∧ h.acceptRanges.getD noneStr ≠ noneStr then downloaded0 else 0)
      (h.contentLength.getD 0) srv.servedView fs
      (srv.body (if downloaded0 > 0 then some downloaded0 else none))

/-- The `downloaded` counter read from a pre-existing partial file
    (`os.path.getsize(tmp_path)` when it exists, else `0`). -/
def partSize (cwd : List PyStr) (dest_path : PyStr) (fs : FS) : Nat :=
  ((lookupFile fs (realpathC cwd (dest_path ++ pys ".part"))).map (fun fd => fd.size)).getD 0

/-- The resume offset actually used for writing: the partial size when
    resuming (partial present and ranges supported), otherwise `0`
    (mode `wb` truncates). -/
def resumeBase (cwd : List PyStr) (dest_path : PyStr) (fs : FS) (h : HeadR) : Nat :=
  if partSize cwd dest_path fs > 0 ∧ h.acceptRanges.getD noneStr ≠ noneStr then
    partSize cwd dest_path fs
  else 0

/-- `download_with_resume(url, dest_path)`.  Returns the filesystem after
    the call together with `ok` or the failure raised. -/
def download_with_resume (cwd : List PyStr) (srv : Server) (dest_path : PyStr) (fs : FS) :
    FS × Except DErr Unit :=
  dlHead cwd srv dest_path (dest_path ++ pys ".part") (partSize cwd dest_path fs) fs srv.headOk

/-! ## `verify_gzip` (`download_isd_csv.py` lines 143-151) -/

/-- `tarfile.open(path, "r:gz")` followed by reading the member table:
    `none` when any exception is raised (missing file, truncated or
    malformed archive), otherwise the member list. -/
def openTar (cwd : List PyStr) (fs : FS) (path : PyStr) : Option (List TarMember) :=
  (lookupFile fs (realpathC cwd path)).bind (fun fd => fd.tarView)

/-- `verify_gzip(path)`: `True` unless opening the archive and reading
    its member table raises, in which case the exception is swallowed
    and `False` returned. -/
def verify_gzip (cwd : List PyStr) (fs : FS) (path : PyStr) : Bool :=
  (openTar cwd fs path).isSome

/-! ## `pick_filename_for_year` (`download_isd_csv.py` lines 84-96)

The two `re.findall` calls are compiled directly.  Both patterns have
the shape `>` `\s*` `(CORE)` `<` with the capture group `CORE`.  For the
plain pattern `CORE` is the literal `{year}.tar.gz`.  For the decorated
pattern `CORE` is `isd_{year}_[\w\-]*csv\.tar\.gz`; since `.` is outside
the character class `[\w\-]` while the letters of `csv` are inside it,
the greedy star with backtracking matches at a position exactly when the
maximal class run after the prefix ends in `csv` and is followed by
`.tar.gz`, the star consuming that run minus its final `csv`.
`re.findall` scans left to right, taking non-overlapping matches and
restarting one character later on failure.  `\w` is modelled as ASCII
alphanumerics plus underscore. -/

/-- `\w`. -/
def isWordCh (c : Char) : Bool := c.isAlpha || c.isDigit || c = '_'

/-- The class `[\w\-]`. -/
def isClassCh (c : Char) : Bool := isWordCh c || c = '-'

/-- `\s`. -/
def isSpaceCh (c : Char) : Bool :=
  c = ' ' || c = '\t' || c = '\n' || c = '\r' || c = '\x0b' || c = '\x0c'

/-- Strip a literal head, returning the remainder. -/
def stripPfxP (pre s : PyStr) : Option PyStr :=
  if pre.isPrefixOf s then some (s.drop pre.length) else none

/-- Try the plain pattern `>(?:\s*)({year}\.tar\.gz)<` at the start of
    `s`; on success return the capture and the text after the match. -/
def matchPlainAt (year : Nat) (s : PyStr) : Option (PyStr × PyStr) :=
  match s with
  | '>' :: rest =>
    let rest1 := rest.dropWhile isSpaceCh
    let cap := natChars year ++ pys ".tar.gz"
    match stripPfxP cap rest1 with
    | some ('<' :: after) => some (cap, after)
    | _ => none
  | _ => none

/-- Try the decorated pattern `>(?:\s*)(isd_{year}_[\w\-]*csv\.tar\.gz)<`
    at the start of `s`. -/
def matchDecorAt (year : Nat) (s : PyStr) : Option (PyStr × PyStr) :=
  match s with
  | '>' :: rest =>
    let rest1 := rest.dropWhile isSpaceCh
    let pre := pys "isd_" ++ natChars year ++ pys "_"
    match stripPfxP pre rest1 with
    | some rest2 =>
      let run := rest2.takeWhile isClassCh
      let rest3 := rest2.drop run.length
      if (pys "csv").isSuffixOf run then
        match stripPfxP (pys ".tar.gz") rest3 with
        | some ('<' :: after) => some (pre ++ run ++ pys ".tar.gz", after)
        | _ => none
      else none
    | none => none
  | _ => none

/-- `re.findall` scan: collect non-overlapping matches left to right,
    with fuel for termination (the string length suffices, as every match
    consumes at least one character). -/
def findAllGo (matchAt : PyStr → Option (PyStr × PyStr)) : Nat → PyStr → List PyStr
  | 0, _ => []
  | _, [] => []
  | fuel + 1, c :: rest =>
    match matchAt (c :: rest) with
    | some (cap, after) => cap :: findAllGo matchAt fuel after
    | none => findAllGo matchAt fuel rest

/-- `re.findall(pattern, s)` for one of the two compiled patterns. -/
def reFindAll (matchAt : PyStr → Option (PyStr × PyStr)) (s : PyStr) : List PyStr :=
  findAllGo matchAt s.length s

/-- Lexicographic comparison of Python strings (by code point). -/
def lexLe : PyStr → PyStr → Bool
  | [], _ => true
  | _ :: _, [] => false
  | a :: as', b :: bs' => if a < b then true else if a = b then lexLe as' bs' else false

/-- The order `sorted` sorts by, as a decidable relation. -/
def lexR (a b : PyStr) : Prop := lexLe a b = true

instance : DecidableRel lexR := fun a b => instDecidableEqBool (lexLe a b) true

/-- `sorted(set(l))[-1]` for nonempty `l`: deduplicate, sort
    lexicographically, take the last.  (`lexR` is antisymmetric on the
    deduplicated list, so any sorting algorithm yields this same list.) -/
def sortedSetLast (l : List PyStr) : PyStr :=
  (List.insertionSort lexR l.dedup).getLastD []

/-- `pick_filename_for_year(index_html, year)`: plain pattern first, then
    the decorated pattern, else `None`; with several candidates the
    lexicographically last is taken. -/
def pick_filename_for_year (index_html : PyStr) (year : Nat) : Option PyStr :=
  let m1 := reFindAll (matchPlainAt year) index_html
  if m1 ≠ [] then some (sortedSetLast m1)
  else
    let m2 := reFindAll (matchDecorAt year) index_html
    if m2 ≠ [] then some (sortedSetLast m2)
    else none

/-! ## `process_one_year` (`download_isd_csv.py` lines 182-220) and the
orchestrator `main` (lines 222-266)

The worker pool runs one independent `process_one_year` job per year and
aggregates outcomes as they complete; jobs share no mutable state, so the
run is modelled as a sequential fold over the year list.  The returned
message strings are modelled as a structured outcome; `downloadedFlag`
records whether the `[↓]` download branch was taken (as opposed to the
`[=] found existing` branch). -/

/-- The message classes `process_one_year` returns. -/
inductive Outcome
  | notFoundO
  | alreadyO (nfiles : Nat)
  | corruptedO
  | extractedO (ncsv : Nat)
  | errO
deriving DecidableEq

/-- Result of one per-year job. -/
structure JobRes where
  jfs : FS
  out : Outcome
  downloadedFlag : Bool
deriving DecidableEq

/-- `RAW_DIR` (`BASE_ROOT = "/data"`). -/
def RAW_DIRP : PyStr := pys "/data/isd/csv_raw"

/-- `EXTRACT_DIR`. -/
def EXTRACT_DIRP : PyStr := pys "/data/isd/csv_extracted"

/-- Stage of `process_one_year` after extraction: the result message. -/
def jobExtract (dflag : Bool) : YearRes → JobRes
  | ⟨fs2, Except.error _⟩ => ⟨fs2, Outcome.errO, dflag⟩
  | ⟨fs2, Except.ok n⟩ => ⟨fs2, Outcome.extractedO n, dflag⟩

/-- Stage of `process_one_year` once the archive is on disk: verify it
    (deleting it and reporting `corrupted` on failure), else extract. -/
def jobAfterVerify (cwd : List PyStr) (raw_path year_dir : PyStr) (dflag : Bool) (fs1 : FS) :
    JobRes :=
  if ¬ verify_gzip cwd fs1 raw_path then
    ⟨removeFile fs1 (realpathC cwd raw_path), Outcome.corruptedO, dflag⟩
  else jobExtract dflag (extract_year_tar cwd fs1 raw_path year_dir)

/-- Stage of `process_one_year` after the download attempt: a raised
    download error is caught by the enclosing `try` and reported as
    `[ERR]`. -/
def jobAfterDl (cwd : List PyStr) (raw_path year_dir : PyStr) (dflag : Bool) (fs1 : FS) :
    Except DErr Unit → JobRes
  | Except.error _ => ⟨fs1, Outcome.errO, dflag⟩
  | Except.ok _ => jobAfterVerify cwd raw_path year_dir dflag fs1

/-- Stage of `process_one_year` after name resolution. -/
def jobResolved (cwd : List PyStr) (srv : Server) (year : Nat) (fs : FS) (fn : PyStr) : JobRes :=
  let raw_path := joinP RAW_DIRP fn
  let year_dir := joinP EXTRACT_DIRP (natChars year)
  if existsP fs (realpathC cwd year_dir) && hasChildren fs (realpathC cwd year_dir) then
    ⟨fs, Outcome.alreadyO (childNames fs (realpathC cwd year_dir)).length, false⟩
  else if (lookupFile fs (realpathC cwd raw_path)).isSome then
    jobAfterDl cwd raw_path year_dir false fs (Except.ok ())
  else
    let r := download_with_resume cwd srv raw_path fs
    jobAfterDl cwd raw_path year_dir true r.1 r.2

/-- `process_one_year(year, index_html)`. -/
def process_one_year (cwd : List PyStr) (srv : Server) (index_html : PyStr) (year : Nat)
    (fs : FS) : JobRes :=
  match pick_filename_for_year index_html year with
  | none => ⟨fs, Outcome.notFoundO, false⟩
  | some fn => jobResolved cwd srv year fs fn

/-- `re.fullmatch(rf"isd_{y}_[\w\-]*csv\.tar\.gz", name)` as a Boolean:
    the name is the prefix, then a class run ending in `csv`, then
    exactly `.tar.gz`. -/
def fullmatchDecor (year : Nat) (nm : PyStr) : Bool :=
  let pre := pys "isd_" ++ natChars year ++ pys "_"
  match stripPfxP pre nm with
  | none => false
  | some rest =>
    let run := rest.takeWhile isClassCh
    let rest2 := rest.drop run.length
    (pys "csv").isSuffixOf run && rest2 == pys ".tar.gz"

/-- One `os.remove` attempt of the cleanup loop: remove `RAW_DIR/c` when
    it exists (`if os.path.exists(p): os.remove(p)`). -/
def cleanupStep (cwd : List PyStr) (acc : FS) (c : PyStr) : FS :=
  let p := joinP RAW_DIRP c
  if (lookupFile acc (realpathC cwd p)).isSome then removeFile acc (realpathC cwd p)
  else acc

/-- The cleanup loop body for one year (`main`, lines 254-263): remove
    `RAW_DIR/{y}.tar.gz` and every `RAW_DIR` entry fully matching the
    decorated pattern, whenever present. -/
def cleanupYear (cwd : List PyStr) (fs : FS) (year : Nat) : FS :=
  let pat1 := joinP RAW_DIRP (natChars year ++ pys ".tar.gz")
  let cands := (childNames fs (realpathC cwd RAW_DIRP)).filter (fullmatchDecor year)
  let fs1 :=
    if (lookupFile fs (realpathC cwd pat1)).isSome then removeFile fs (realpathC cwd pat1)
    else fs
  cands.foldl (cleanupStep cwd) fs1

/-- The post-run cleanup of `main` (`if not args.keep_tar`). -/
def cleanupRun (cwd : List PyStr) (fs : FS) (years : List Nat) : FS :=
  years.foldl (cleanupYear cwd) fs

/-- The orchestrator `main`, for a given year list: run every job,
    collect the outcomes, then optionally clean up. -/
def mainRun (cwd : List PyStr) (srv : Server) (index_html : PyStr) (years : List Nat)
    (keep_tar : Bool) (fs : FS) : FS × List (Nat × Outcome) :=
  let step := fun (acc : FS × List (Nat × Outcome)) y =>
    let r := process_one_year cwd srv index_html y acc.1
    (r.jfs, acc.2 ++ [(y, r.out)])
  let fo := years.foldl step (fs, [])
  (if keep_tar then fo.1 else cleanupRun cwd fo.1 years, fo.2)

/-! ## Frame lemmas for the filesystem operations -/

theorem find?_filter_ne {p k : List PyStr} (l : List (List PyStr × FileData)) (h : p ≠ k) :
    (l.filter (fun e => decide (e.1 ≠ k))).find? (fun e => decide (e.1 = p)) =
      l.find? (fun e => decide (e.1 = p)) := by
  induction l with
  | nil => rfl
  | cons e t ih =>
    by_cases hk : e.1 = k
    · have hp : ¬ (fun e => decide (e.1 = p)) e = true := by
        simp only [decide_eq_true_eq]
        exact fun hc => h (hc ▸ hk)
      rw [List.filter_cons_of_neg (by simpa using hk), ih]
      exact (List.find?_cons_of_neg t hp).symm
    · by_cases hp : e.1 = p
      · rw [List.filter_cons_of_pos (by simpa using hk)]
        rw [List.find?_cons_of_pos (List.filter (fun e => decide (e.1 ≠ k)) t)
          (by simpa using hp)]
        exact (List.find?_cons_of_pos t (by simpa using hp)).symm
      · rw [List.filter_cons_of_pos (by simpa using hk)]
        rw [List.find?_cons_of_neg (List.filter (fun e => decide (e.1 ≠ k)) t)
          (by simpa using hp)]
        rw [ih]
        exact (List.find?_cons_of_neg t (by simpa using hp)).symm

theorem lookupFile_setFile_self (fs : FS) (k : List PyStr) (fd : FileData) :
    lookupFile (setFile fs k fd) k = some fd := by
  simp only [lookupFile, setFile]
  rw [List.find?_cons_of_pos _ (by simp)]
  rfl

theorem lookupFile_setFile_ne (fs : FS) (k p : List PyStr) (fd : FileData) (h : p ≠ k) :
    lookupFile (setFile fs k fd) p = lookupFile fs p := by
  simp only [lookupFile, setFile]
  rw [List.find?_cons_of_neg _ (by simpa using fun hc => h hc.symm)]
  rw [find?_filter_ne _ h]

theorem lookupFile_removeFile_self (fs : FS) (k : List PyStr) :
    lookupFile (removeFile fs k) k = none := by
  simp only [lookupFile, removeFile]
  have hf : (fs.files.filter (fun e => decide (e.1 ≠ k))).find? (fun e => decide (e.1 = k))
      = none := by
    rw [List.find?_eq_none]
    intro x hx
    have hmem := (List.mem_filter.mp hx).2
    simp only [decide_eq_true_eq] at hmem ⊢
    exact hmem
  rw [hf]
  rfl

theorem lookupFile_removeFile_ne (fs : FS) (k p : List PyStr) (h : p ≠ k) :
    lookupFile (removeFile fs k) p = lookupFile fs p := by
  simp only [lookupFile, removeFile]
  rw [find?_filter_ne _ h]

theorem lookupFile_mkdirs (fs : FS) (d p : List PyStr) :
    lookupFile (mkdirs fs d) p = lookupFile fs p := rfl

theorem dirs_setFile (fs : FS) (k : List PyStr) (fd : FileData) :
    (setFile fs k fd).dirs = fs.dirs := rfl

theorem dirs_removeFile (fs : FS) (k : List PyStr) :
    (removeFile fs k).dirs = fs.dirs := rfl

theorem mem_dirs_mkdirs (fs : FS) (d q : List PyStr) :
    q ∈ (mkdirs fs d).dirs ↔ q ∈ fs.dirs ∨ q <+: d := by
  simp only [mkdirs, List.mem_append, List.mem_filter, List.mem_inits, decide_eq_true_eq]
  constructor
  · rintro (h | ⟨h, _⟩)
    · exact Or.inl h
    · exact Or.inr h
  · intro h
    by_cases hm : q ∈ fs.dirs
    · exact Or.inl hm
    · rcases h with h | h
      · exact absurd h hm
      · exact Or.inr ⟨h, hm⟩

theorem mem_dirs_mkdirs_of_mem (fs : FS) (d q : List PyStr) (h : q ∈ fs.dirs) :
    q ∈ (mkdirs fs d).dirs := (mem_dirs_mkdirs fs d q).mpr (Or.inl h)

/-! ## Lemmas about path splitting and lexical resolution -/

/-- A canonical path component: nonempty and free of separators. -/
def GoodComp (c : PyStr) : Prop := c ≠ [] ∧ '/' ∉ c

theorem splitK_ne_nil : ∀ s : PyStr, splitK s ≠ [] := by
  intro s
  induction s with
  | nil => simp [splitK]
  | cons x xs ih =>
    by_cases hx : x = '/'
    · simp [splitK, hx]
    · simp only [splitK, if_neg hx]
      cases hsp : splitK xs with
      | nil => simp
      | cons p ps => simp

theorem splitK_noSlash : ∀ s : PyStr, ∀ c ∈ splitK s, '/' ∉ c := by
  intro s
  induction s with
  | nil =>
    intro c hc
    simp only [splitK, List.mem_singleton] at hc
    simp [hc]
  | cons x xs ih =>
    intro c hc
    by_cases hx : x = '/'
    · simp only [splitK, hx, if_pos rfl] at hc
      rcases List.mem_cons.mp hc with h | h
      · simp [h]
      · exact ih c h
    · simp only [splitK, if_neg hx] at hc
      cases hsp : splitK xs with
      | nil => exact absurd hsp (splitK_ne_nil xs)
      | cons p ps =>
        rw [hsp] at hc
        rcases List.mem_cons.mp hc with h | h
        · subst h
          intro hmem
          rcases List.mem_cons.mp hmem with h' | h'
          · exact hx h'.symm
          · exact ih p (hsp ▸ List.mem_cons_self p ps) h'
        · exact ih c (hsp ▸ List.mem_cons_of_mem p h)

theorem splitK_append (a b : PyStr) : splitK (a ++ '/' :: b) = splitK a ++ splitK b := by
  induction a with
  | nil => simp [splitK]
  | cons x xs ih =>
    by_cases hx : x = '/'
    · subst hx
      rw [List.cons_append]
      show ([] : PyStr) :: splitK (xs ++ '/' :: b) = (([] : PyStr) :: splitK xs) ++ splitK b
      rw [ih]
      rfl
    · have h1 : splitK (x :: (xs ++ '/' :: b)) =
          match splitK (xs ++ '/' :: b) with
          | [] => [[x]]
          | p :: ps => (x :: p) :: ps := by
        simp [splitK, hx]
      have h2 : splitK (x :: xs) =
          match splitK xs with
          | [] => [[x]]
          | p :: ps => (x :: p) :: ps := by
        simp [splitK, hx]
      cases hsp : splitK xs with
      | nil => exact absurd hsp (splitK_ne_nil xs)
      | cons p ps =>
        rw [List.cons_append, h1, h2, hsp, ih, hsp]
        rfl

theorem splitK_of_noSlash (w : PyStr) (hw : '/' ∉ w) : splitK w = [w] := by
  induction w with
  | nil => rfl
  | cons x xs ih =>
    have hx : x ≠ '/' := fun h => hw (h ▸ List.mem_cons_self x xs)
    have hxs : '/' ∉ xs := fun h => hw (List.mem_cons_of_mem x h)
    simp only [splitK, if_neg hx, ih hxs]

theorem ndGo_append (xs ys st : List PyStr) :
    ndGo st (xs ++ ys) = ndGo (ndGo st xs) ys := by
  induction xs generalizing st with
  | nil => rfl
  | cons c cs ih =>
    by_cases h1 : c = [] ∨ c = ['.']
    · simp only [List.cons_append, ndGo, if_pos h1]
      exact ih st
    · by_cases h2 : c = ['.', '.']
      · simp only [List.cons_append, ndGo, if_neg h1, if_pos h2]
        exact ih st.tail
      · simp only [List.cons_append, ndGo, if_neg h1, if_neg h2]
        exact ih (c :: st)

theorem ndGo_good : ∀ (l st : List PyStr), (∀ c ∈ st, GoodComp c) → (∀ c ∈ l, '/' ∉ c) →
    ∀ c ∈ ndGo st l, GoodComp c := by
  intro l
  induction l with
  | nil => intro st hst _ c hc; exact hst c hc
  | cons x xs ih =>
    intro st hst hl c hc
    have hxs : ∀ c ∈ xs, '/' ∉ c := fun c hc => hl c (List.mem_cons_of_mem x hc)
    by_cases h1 : x = [] ∨ x = ['.']
    · rw [show ndGo st (x :: xs) = ndGo st xs by simp [ndGo, h1]] at hc
      exact ih st hst hxs c hc
    · by_cases h2 : x = ['.', '.']
      · rw [show ndGo st (x :: xs) = ndGo st.tail xs by simp [ndGo, h1, h2]] at hc
        exact ih st.tail (fun c hc => hst c (List.mem_of_mem_tail hc)) hxs c hc
      · rw [show ndGo st (x :: xs) = ndGo (x :: st) xs by simp [ndGo, h1, h2]] at hc
        refine ih (x :: st) ?_ hxs c hc
        intro c hc
        rcases List.mem_cons.mp hc with h | h
        · subst h
          exact ⟨fun hn => h1 (Or.inl hn), hl _ (List.mem_cons_self _ xs)⟩
        · exact hst c h

theorem resolveDots_good (l : List PyStr) (hl : ∀ c ∈ l, '/' ∉ c) :
    ∀ c ∈ resolveDots l, GoodComp c := by
  intro c hc
  exact ndGo_good l [] (by simp) hl c (List.mem_reverse.mp hc)

theorem realpathC_good (cwd : List PyStr) (s : PyStr) (hcwd : ∀ c ∈ cwd, '/' ∉ c) :
    ∀ c ∈ realpathC cwd s, GoodComp c := by
  intro c hc
  refine resolveDots_good _ ?_ c hc
  intro d hd
  rcases List.mem_append.mp hd with h | h
  · by_cases habs : isAbsP s = true
    · rw [if_pos habs] at h
      simp at h
    · rw [if_neg habs] at h
      exact hcwd d h
  · exact splitK_noSlash s d h

theorem ndGo_single_good (st : List PyStr) (w : PyStr) (h0 : w ≠ []) (h1 : w ≠ ['.'])
    (h2 : w ≠ ['.', '.']) : ndGo st [w] = w :: st := by
  simp [ndGo, h0, h1, h2]

theorem tail_reverse_eq (l : List PyStr) : l.tail.reverse = l.reverse.dropLast := by
  cases l with
  | nil => rfl
  | cons a t => simp [List.reverse_cons, List.dropLast_concat]

theorem resolveDots_append_good (l : List PyStr) (w : PyStr) (h0 : w ≠ []) (h1 : w ≠ ['.'])
    (h2 : w ≠ ['.', '.']) : resolveDots (l ++ [w]) = resolveDots l ++ [w] := by
  simp only [resolveDots, ndGo_append l [w] [], ndGo_single_good _ w h0 h1 h2,
    List.reverse_cons]

theorem resolveDots_append_drop (l : List PyStr) (w : PyStr) (h : w = [] ∨ w = ['.']) :
    resolveDots (l ++ [w]) = resolveDots l := by
  simp only [resolveDots, ndGo_append l [w] []]
  congr 1
  simp [ndGo, h]

theorem resolveDots_append_pop (l : List PyStr) :
    resolveDots (l ++ [['.', '.']]) = (resolveDots l).dropLast := by
  simp only [resolveDots, ndGo_append l [['.', '.']] []]
  rw [show ndGo (ndGo [] l) [['.', '.']] = (ndGo [] l).tail by simp [ndGo]]
  exact tail_reverse_eq _

/-! ## Rendered path strings: the prefix structure of `startswith` -/

theorem sep_split_pfx_iff : ∀ (u v s t : PyStr), '/' ∉ u → '/' ∉ v →
    ((u ++ '/' :: s) <+: (v ++ '/' :: t) ↔ u = v ∧ s <+: t) := by
  intro u
  induction u with
  | nil =>
    intro v s t _ hv
    cases v with
    | nil =>
      rw [List.nil_append, List.nil_append, List.cons_prefix_cons]
      simp
    | cons w v' =>
      constructor
      · intro h
        rw [List.nil_append, List.cons_append, List.cons_prefix_cons] at h
        exfalso
        apply hv
        rw [h.1]
        exact List.mem_cons_self _ _
      · rintro ⟨h, _⟩
        exact absurd h (by simp)
  | cons x u' ih =>
    intro v s t hu hv
    have hu' : '/' ∉ u' := fun h => hu (List.mem_cons_of_mem x h)
    have hx : x ≠ '/' := fun h => hu (h ▸ List.mem_cons_self x u')
    cases v with
    | nil =>
      constructor
      · intro h
        rw [List.cons_append, List.nil_append, List.cons_prefix_cons] at h
        exact absurd h.1 hx
      · rintro ⟨h, _⟩
        exact absurd h (by simp)
    | cons w v' =>
      have hv' : '/' ∉ v' := fun h => hv (List.mem_cons_of_mem w h)
      rw [List.cons_append, List.cons_append, List.cons_prefix_cons, ih v' s t hu' hv']
      constructor
      · rintro ⟨h1, h2, h3⟩
        exact ⟨by rw [h1, h2], h3⟩
      · rintro ⟨h1, h2⟩
        obtain ⟨ha, hb⟩ := List.cons.injEq x u' w v' ▸ h1
        exact ⟨ha, hb, h2⟩

theorem sep_split_eq (u v s t : PyStr) (hu : '/' ∉ u) (hv : '/' ∉ v)
    (h : u ++ '/' :: s = v ++ '/' :: t) : u = v ∧ s = t := by
  have h1 : u ++ '/' :: s <+: v ++ '/' :: t := h ▸ List.prefix_refl _
  obtain ⟨he, hp⟩ := (sep_split_pfx_iff u v s t hu hv).mp h1
  refine ⟨he, ?_⟩
  subst he
  have h2 : ('/' :: s : PyStr) = '/' :: t := List.append_cancel_left h
  injection h2 with _ h3

theorem joinComps_no_lead_slash (a : List PyStr) (ha : ∀ c ∈ a, GoodComp c) :
    ¬ (['/'] <+: joinComps a) := by
  intro h
  obtain ⟨r, hr⟩ := h
  match a, ha with
  | [], _ => simp [joinComps] at hr
  | [c], ha =>
    have hm : '/' ∈ c := by
      rw [show c = joinComps [c] from rfl, ← hr]
      exact List.mem_cons_self _ _
    exact (ha c (List.mem_singleton.mpr rfl)).2 hm
  | c :: c' :: a', ha =>
    have hg := ha c (List.mem_cons_self _ _)
    cases c with
    | nil => exact hg.1 rfl
    | cons d ds =>
      rw [show joinComps ((d :: ds) :: c' :: a') = (d :: ds) ++ '/' :: joinComps (c' :: a')
        from rfl, List.cons_append] at hr
      rw [List.cons_append] at hr
      injection hr with h1 _
      exact hg.2 (h1 ▸ List.mem_cons_self d ds)

theorem joinComps_sep_pfx_iff : ∀ (b a : List PyStr), (∀ c ∈ a, GoodComp c) →
    (∀ c ∈ b, GoodComp c) →
    ((joinComps b ++ ['/']) <+: joinComps a ↔ b ≠ [] ∧ b <+: a ∧ b ≠ a) := by
  intro b
  induction b with
  | nil =>
    intro a ha _
    simp only [joinComps, List.nil_append]
    constructor
    · intro h
      exact absurd h (joinComps_no_lead_slash a ha)
    · rintro ⟨h, _⟩
      exact absurd rfl h
  | cons x b' ih =>
    intro a ha hb
    have hx : GoodComp x := hb x (List.mem_cons_self _ _)
    have hb' : ∀ c ∈ b', GoodComp c := fun c hc => hb c (List.mem_cons_of_mem x hc)
    cases b' with
    | nil =>
      cases a with
      | nil =>
        constructor
        · intro h
          rw [show joinComps ([] : List PyStr) = ([] : PyStr) from rfl, List.prefix_nil] at h
          exact absurd h (by simp)
        · rintro ⟨_, h, _⟩
          rw [List.prefix_nil] at h
          exact absurd h (by simp)
      | cons y a' =>
        have hy : GoodComp y := ha y (List.mem_cons_self _ _)
        have ha' : ∀ c ∈ a', GoodComp c := fun c hc => ha c (List.mem_cons_of_mem y hc)
        cases a' with
        | nil =>
          constructor
          · intro h
            have hm : '/' ∈ (y : PyStr) := h.subset (by simp [joinComps])
            exact absurd hm hy.2
          · rintro ⟨_, h1, h2⟩
            exact absurd (h1.eq_of_length (by simp)) h2
        | cons y' a'' =>
          have hJ : joinComps (y :: y' :: a'') = y ++ '/' :: joinComps (y' :: a'') := rfl
          have hJ2 : joinComps [x] ++ ['/'] = x ++ '/' :: ([] : PyStr) := rfl
          rw [hJ, hJ2, sep_split_pfx_iff x y [] _ hx.2 hy.2]
          constructor
          · rintro ⟨h1, _⟩
            subst h1
            refine ⟨by simp, ⟨y' :: a'', rfl⟩, ?_⟩
            intro hc
            have := congrArg List.length hc
            simp at this
          · rintro ⟨_, h1, _⟩
            rw [List.cons_prefix_cons] at h1
            exact ⟨h1.1, List.nil_prefix⟩
    | cons w b'' =>
      have hJb : joinComps (x :: w :: b'') ++ ['/'] =
          x ++ '/' :: (joinComps (w :: b'') ++ ['/']) := by
        rw [show joinComps (x :: w :: b'') = x ++ '/' :: joinComps (w :: b'') from rfl]
        simp
      cases a with
      | nil =>
        constructor
        · intro h
          rw [show joinComps ([] : List PyStr) = ([] : PyStr) from rfl, List.prefix_nil,
            hJb] at h
          exact absurd h (by simp)
        · rintro ⟨_, h, _⟩
          rw [List.prefix_nil] at h
          exact absurd h (by simp)
      | cons y a' =>
        have hy : GoodComp y := ha y (List.mem_cons_self _ _)
        have ha' : ∀ c ∈ a', GoodComp c := fun c hc => ha c (List.mem_cons_of_mem y hc)
        cases a' with
        | nil =>
          constructor
          · intro h
            have hm : '/' ∈ (y : PyStr) := by
              refine h.subset ?_
              rw [hJb]
              exact List.mem_append_right _ (List.mem_cons_self _ _)
            exact absurd hm hy.2
          · rintro ⟨_, h1, _⟩
            have := h1.length_le
            simp at this
        | cons y' a'' =>
          have hJ : joinComps (y :: y' :: a'') = y ++ '/' :: joinComps (y' :: a'') := rfl
          rw [hJb, hJ, sep_split_pfx_iff x y _ _ hx.2 hy.2,
            ih (y' :: a'') ha' hb']
          constructor
          · rintro ⟨h1, _, h2, h3⟩
            subst h1
            refine ⟨by simp, ?_, ?_⟩
            · rw [List.cons_prefix_cons]
              exact ⟨rfl, h2⟩
            · intro hc
              injection hc with _ hc'
              exact h3 hc'
          · rintro ⟨_, h1, h2⟩
            rw [List.cons_prefix_cons] at h1
            refine ⟨h1.1, by simp, h1.2, ?_⟩
            intro hc
            apply h2
            rw [h1.1, hc]

theorem renderP_pfx_iff (a b : List PyStr) (ha : ∀ c ∈ a, GoodComp c)
    (hb : ∀ c ∈ b, GoodComp c) :
    ((renderP b ++ ['/']) <+: renderP a ↔ b ≠ [] ∧ b <+: a ∧ b ≠ a) := by
  rw [show renderP b ++ ['/'] = '/' :: (joinComps b ++ ['/']) from rfl,
    show renderP a = '/' :: joinComps a from rfl, List.cons_prefix_cons]
  rw [joinComps_sep_pfx_iff b a ha hb]
  simp

theorem joinComps_inj : ∀ (a b : List PyStr), (∀ c ∈ a, GoodComp c) →
    (∀ c ∈ b, GoodComp c) → joinComps a = joinComps b → a = b := by
  intro a
  induction a with
  | nil =>
    intro b _ hb h
    match b, hb, h with
    | [], _, _ => rfl
    | [c], hb, h =>
      exact absurd (show c = [] from h.symm) (hb c (List.mem_singleton.mpr rfl)).1
    | c :: c' :: l, hb, h =>
      have hg := hb c (List.mem_cons_self _ _)
      rw [show joinComps (c :: c' :: l) = c ++ '/' :: joinComps (c' :: l) from rfl] at h
      cases c with
      | nil => simp [joinComps] at h
      | cons d ds => simp [joinComps] at h
  | cons x a' ih =>
    intro b hxa hb h
    have hx : GoodComp x := hxa x (List.mem_cons_self _ _)
    have ha' : ∀ c ∈ a', GoodComp c := fun c hc => hxa c (List.mem_cons_of_mem x hc)
    match b, hb, h with
    | [], hb, h =>
      cases a' with
      | nil => exact absurd (show x = [] from h) hx.1
      | cons w l =>
        rw [show joinComps (x :: w :: l) = x ++ '/' :: joinComps (w :: l) from rfl] at h
        cases x with
        | nil => simp [joinComps] at h
        | cons d ds => simp [joinComps] at h
    | [c], hb, h =>
      cases a' with
      | nil => rw [show joinComps [x] = x from rfl, show joinComps [c] = c from rfl] at h; rw [h]
      | cons w l =>
        rw [show joinComps (x :: w :: l) = x ++ '/' :: joinComps (w :: l) from rfl,
          show joinComps [c] = c from rfl] at h
        have hm : '/' ∈ c := h ▸ List.mem_append_right x (List.mem_cons_self _ _)
        exact absurd hm (hb c (List.mem_singleton.mpr rfl)).2
    | c :: c' :: l, hb, h =>
      have hc : GoodComp c := hb c (List.mem_cons_self _ _)
      have hcl : ∀ e ∈ c' :: l, GoodComp e := fun e he => hb e (List.mem_cons_of_mem c he)
      cases a' with
      | nil =>
        rw [show joinComps (c :: c' :: l) = c ++ '/' :: joinComps (c' :: l) from rfl,
          show joinComps [x] = x from rfl] at h
        have hm : '/' ∈ x := h ▸ List.mem_append_right c (List.mem_cons_self _ _)
        exact absurd hm hx.2
      | cons w m =>
        rw [show joinComps (x :: w :: m) = x ++ '/' :: joinComps (w :: m) from rfl,
          show joinComps (c :: c' :: l) = c ++ '/' :: joinComps (c' :: l) from rfl] at h
        obtain ⟨h1, h2⟩ := sep_split_eq x c _ _ hx.2 hc.2 h
        have h3 := ih (c' :: l) ha' hcl h2
        rw [h1, h3]

theorem renderP_inj (a b : List PyStr) (ha : ∀ c ∈ a, GoodComp c)
    (hb : ∀ c ∈ b, GoodComp c) (h : renderP a = renderP b) : a = b := by
  unfold renderP at h
  injection h with _ h2
  exact joinComps_inj a b ha hb h2

theorem mem_commonPfxC : ∀ (d t : List PyStr) (c : PyStr), c ∈ commonPfxC d t → c ∈ d := by
  intro d
  induction d with
  | nil => intro t c hc; simp [commonPfxC] at hc
  | cons x xs ih =>
    intro t c hc
    cases t with
    | nil => simp [commonPfxC] at hc
    | cons y ys =>
      by_cases hxy : x = y
      · rw [show commonPfxC (x :: xs) (y :: ys) = x :: commonPfxC xs ys by
          simp [commonPfxC, hxy]] at hc
        rcases List.mem_cons.mp hc with h | h
        · exact h ▸ List.mem_cons_self _ _
        · exact List.mem_cons_of_mem x (ih ys c h)
      · rw [show commonPfxC (x :: xs) (y :: ys) = [] by simp [commonPfxC, hxy]] at hc
        simp at hc

theorem commonPfxC_eq_self_iff : ∀ (d t : List PyStr), commonPfxC d t = d ↔ d <+: t := by
  intro d
  induction d with
  | nil => intro t; simp [commonPfxC, List.nil_prefix]
  | cons x xs ih =>
    intro t
    cases t with
    | nil =>
      constructor
      · intro h
        simp [commonPfxC] at h
      · intro h
        rw [List.prefix_nil] at h
        exact absurd h (by simp)
    | cons y ys =>
      by_cases hxy : x = y
      · rw [show commonPfxC (x :: xs) (y :: ys) = x :: commonPfxC xs ys by
          simp [commonPfxC, hxy], List.cons_prefix_cons]
        constructor
        · intro h
          injection h with _ h2
          exact ⟨hxy, (ih ys).mp h2⟩
        · rintro ⟨_, h⟩
          rw [(ih ys).mpr h]
      · rw [show commonPfxC (x :: xs) (y :: ys) = [] by simp [commonPfxC, hxy],
          List.cons_prefix_cons]
        constructor
        · intro h
          exact absurd h.symm (by simp)
        · rintro ⟨h, _⟩
          exact absurd h hxy

/-- `abspathC` and `realpathC` coincide in the symlink-free model. -/
theorem abspathC_eq_realpathC (cwd : List PyStr) (s : PyStr) :
    abspathC cwd s = realpathC cwd s := rfl

/-- Characterization of the guard of `extract_year_tar`: with a
    separator-free current directory, `is_within_directory` holds exactly
    when the normalized target is the normalized directory or a
    descendant of it. -/
theorem is_within_directory_iff (cwd : List PyStr) (d t : PyStr)
    (hcwd : ∀ c ∈ cwd, '/' ∉ c) :
    (is_within_directory cwd d t = true ↔ abspathC cwd d <+: abspathC cwd t) := by
  unfold is_within_directory
  simp only [beq_iff_eq]
  have hgd : ∀ c ∈ abspathC cwd d, GoodComp c := by
    rw [abspathC_eq_realpathC]
    exact realpathC_good cwd d hcwd
  have hgc : ∀ c ∈ commonPfxC (abspathC cwd d) (abspathC cwd t), GoodComp c :=
    fun c hc => hgd c (mem_commonPfxC _ _ c hc)
  constructor
  · intro h
    have he := renderP_inj _ _ hgd hgc h
    exact (commonPfxC_eq_self_iff _ _).mp he.symm
  · intro h
    have he := (commonPfxC_eq_self_iff _ _).mpr h
    rw [he]

/-- Characterization of the GSOD guard `is_safe_path`: with a
    separator-free current directory, it holds exactly when the canonical
    candidate is a nonempty strict descendant of the canonical root — in
    particular it is false when the two canonical paths are equal, and
    always false when the root resolves to the filesystem root. -/
theorem is_safe_path_iff (cwd : List PyStr) (basedir path : PyStr)
    (hcwd : ∀ c ∈ cwd, '/' ∉ c) :
    (is_safe_path cwd basedir path = true ↔
      realpathC cwd basedir ≠ [] ∧ realpathC cwd basedir <+: realpathC cwd path ∧
        realpathC cwd basedir ≠ realpathC cwd path) := by
  unfold is_safe_path startsWithP
  rw [ List.isPrefixOf_iff_prefix]
  exact renderP_pfx_iff _ _ (realpathC_good cwd path hcwd) (realpathC_good cwd basedir hcwd)

/-! ## Canonicalization of `dirname` -/

theorem lastSlashSplit_none_of_noSlash : ∀ s : PyStr, '/' ∉ s → lastSlashSplit s = none := by
  intro s
  induction s with
  | nil => intro _; rfl
  | cons x xs ih =>
    intro h
    have hx : x ≠ '/' := fun hc => h (hc ▸ List.mem_cons_self x xs)
    have hxs : '/' ∉ xs := fun hc => h (List.mem_cons_of_mem x hc)
    simp [lastSlashSplit, ih hxs, hx]

theorem lastSlashSplit_append : ∀ (a b : PyStr), '/' ∉ b →
    lastSlashSplit (a ++ '/' :: b) = some (a, b) := by
  intro a
  induction a with
  | nil =>
    intro b hb
    simp [lastSlashSplit, lastSlashSplit_none_of_noSlash b hb]
  | cons x xs ih =>
    intro b hb
    rw [List.cons_append]
    simp [lastSlashSplit, ih b hb]

theorem lastSlashSplit_exists (s : PyStr) (h : '/' ∈ s) :
    ∃ a b, s = a ++ '/' :: b ∧ '/' ∉ b := by
  induction s with
  | nil => simp at h
  | cons x xs ih =>
    by_cases hxs : '/' ∈ xs
    · obtain ⟨a, b, hab, hb⟩ := ih hxs
      exact ⟨x :: a, b, by rw [hab, List.cons_append], hb⟩
    · have hx : x = '/' := by
        rcases List.mem_cons.mp h with h' | h'
        · exact h'.symm
        · exact absurd h' hxs
      exact ⟨[], xs, by rw [hx]; rfl, hxs⟩

theorem rstripSlash_decomp (a : PyStr) :
    ∃ k, a = rstripSlash a ++ List.replicate k '/' := by
  refine ⟨(a.reverse.takeWhile (fun c => c = '/')).length, ?_⟩
  have h1 : a.reverse.takeWhile (fun c => c = '/') ++ a.reverse.dropWhile (fun c => c = '/')
      = a.reverse := List.takeWhile_append_dropWhile _ _
  have h2 : a.reverse.takeWhile (fun c => c = '/') =
      List.replicate (a.reverse.takeWhile (fun c => c = '/')).length '/' := by
    apply List.eq_replicate_of_mem
    intro b hb
    have := List.mem_takeWhile_imp hb
    simpa using this
  have h3 : (a.reverse.takeWhile (fun c => c = '/')).reverse =
      List.replicate (a.reverse.takeWhile (fun c => c = '/')).length '/' := by
    conv_lhs => rw [h2]
    rw [List.reverse_replicate]
  calc a = a.reverse.reverse := by rw [List.reverse_reverse]
    _ = (a.reverse.takeWhile (fun c => c = '/') ++
          a.reverse.dropWhile (fun c => c = '/')).reverse := by rw [h1]
    _ = rstripSlash a ++ (a.reverse.takeWhile (fun c => c = '/')).reverse := by
          rw [List.reverse_append]; rfl
    _ = rstripSlash a ++ List.replicate _ '/' := by rw [h3]

theorem canon_append_slash (x : PyStr) :
    resolveDots (splitK (x ++ ['/'])) = resolveDots (splitK x) := by
  rw [show x ++ ['/'] = x ++ '/' :: [] from rfl, splitK_append]
  rw [show splitK [] = [[]] from rfl]
  exact resolveDots_append_drop _ _ (Or.inl rfl)

theorem canon_append_replicate (x : PyStr) : ∀ k,
    resolveDots (splitK (x ++ List.replicate k '/')) = resolveDots (splitK x) := by
  intro k
  induction k generalizing x with
  | zero => simp
  | succ n ih =>
    rw [List.replicate_succ', ← List.append_assoc, canon_append_slash (x ++ List.replicate n '/')]
    exact ih x

theorem canon_rstripSlash (a : PyStr) :
    resolveDots (splitK (rstripSlash a)) = resolveDots (splitK a) := by
  obtain ⟨k, hk⟩ := rstripSlash_decomp a
  conv_rhs => rw [hk]
  rw [canon_append_replicate]

theorem isAbsP_rstripSlash (a : PyStr) (ha : isAbsP a = true)
    (hne : rstripSlash a ≠ []) : isAbsP (rstripSlash a) = true := by
  obtain ⟨k, hk⟩ := rstripSlash_decomp a
  cases hr : rstripSlash a with
  | nil => exact absurd hr hne
  | cons x xs =>
    rw [hr] at hk
    cases a with
    | nil => simp at hk
    | cons y ys =>
      have : y = x := by
        rw [List.cons_append] at hk
        injection hk with h1 _
      rw [show isAbsP (x :: xs) = decide (x = '/') from rfl]
      rw [show isAbsP (y :: ys) = decide (y = '/') from rfl] at ha
      rw [← this]
      exact ha

/-- Main `dirname` computation: for a path decomposed at its last
    separator, the canonical form of the dirname is the resolution of the
    head. -/
theorem dirname_canon (cwd : List PyStr) (a b : PyStr) (hb : '/' ∉ b)
    (ha : a = [] ∨ isAbsP a = true) :
    realpathC cwd (dirnameP (a ++ '/' :: b)) = resolveDots (splitK a) := by
  have hdd : dirnameP (a ++ '/' :: b) =
      if (a ++ ['/']).all (fun c => c = '/') then a ++ ['/'] else rstripSlash a := by
    unfold dirnameP
    rw [lastSlashSplit_append a b hb]
  rw [hdd]
  by_cases hall : (a ++ ['/']).all (fun c => c = '/') = true
  · rw [if_pos hall]
    have habs : isAbsP (a ++ ['/']) = true := by
      cases a with
      | nil => rfl
      | cons x xs =>
        have hx : x = '/' := by
          have := List.all_eq_true.mp hall x (by simp)
          simpa using this
        simp [isAbsP, hx]
    unfold realpathC
    rw [if_pos habs, List.nil_append]
    exact canon_append_slash a
  · rw [if_neg hall]
    have hane : a ≠ [] := by
      intro hc
      subst hc
      simp at hall
    have habs : isAbsP a = true := by
      rcases ha with h | h
      · exact absurd h hane
      · exact h
    have hnall : ¬ a.all (fun c => c = '/') = true := by
      intro hc
      apply hall
      rw [List.all_append]
      simp [hc]
    have hrne : rstripSlash a ≠ [] := by
      intro hc
      apply hnall
      rw [List.all_eq_true]
      intro c hc'
      obtain ⟨k, hk⟩ := rstripSlash_decomp a
      rw [hk, hc, List.nil_append] at hc'
      simpa using (List.eq_of_mem_replicate hc')
    unfold realpathC
    rw [if_pos (isAbsP_rstripSlash a habs hrne), List.nil_append]
    exact canon_rstripSlash a

/-- The canonical form of an absolute path, relative to the canonical
    form of its dirname: append of one good component, identical, or one
    component shorter. -/
theorem dirname_cases (cwd : List PyStr) (s : PyStr) (habs : isAbsP s = true) :
    (∃ w, GoodComp w ∧
        realpathC cwd s = realpathC cwd (dirnameP s) ++ [w]) ∨
      realpathC cwd s = realpathC cwd (dirnameP s) ∨
      realpathC cwd s = (realpathC cwd (dirnameP s)).dropLast := by
  have hsl : '/' ∈ s := by
    cases s with
    | nil => simp [isAbsP] at habs
    | cons x xs =>
      have : x = '/' := by simpa [isAbsP] using habs
      exact this ▸ List.mem_cons_self _ _
  obtain ⟨a, b, hab, hb⟩ := lastSlashSplit_exists s hsl
  have ha : a = [] ∨ isAbsP a = true := by
    cases a with
    | nil => exact Or.inl rfl
    | cons x xs =>
      rw [hab] at habs
      right
      rw [List.cons_append] at habs
      exact habs
  have hd : realpathC cwd (dirnameP s) = resolveDots (splitK a) := by
    rw [hab]
    exact dirname_canon cwd a b hb ha
  have hs : realpathC cwd s = resolveDots (splitK a ++ [b]) := by
    rw [hab]
    unfold realpathC
    have habs' : isAbsP (a ++ '/' :: b) = true := hab ▸ habs
    rw [if_pos habs', List.nil_append, splitK_append, splitK_of_noSlash b hb]
  by_cases h0 : b = []
  · right; left
    rw [hs, hd, h0]
    exact resolveDots_append_drop _ _ (Or.inl rfl)
  · by_cases h1 : b = ['.']
    · right; left
      rw [hs, hd, h1]
      exact resolveDots_append_drop _ _ (Or.inr rfl)
    · by_cases h2 : b = ['.', '.']
      · right; right
        rw [hs, hd, h2]
        exact resolveDots_append_pop _
      · left
        exact ⟨b, ⟨h0, hb⟩, by rw [hs, hd, resolveDots_append_good _ b h0 h1 h2]⟩

/-! ## Canonicalization of `join`, and branch equations for the
extraction step -/

theorem lstripSlash_not_abs (s : PyStr) : isAbsP (lstripSlash s) = false := by
  unfold lstripSlash
  induction s with
  | nil => rfl
  | cons x xs ih =>
    by_cases hx : x = '/'
    · rw [List.dropWhile_cons, if_pos (by simpa using hx)]
      exact ih
    · rw [List.dropWhile_cons, if_neg (by simpa using hx)]
      simpa [isAbsP] using hx

theorem joinP_isAbs (out b : PyStr) (hout : isAbsP out = true) (hb : isAbsP b = false) :
    isAbsP (joinP out b) = true := by
  have hne : out ≠ [] := by
    intro hc
    rw [hc] at hout
    simp [isAbsP] at hout
  unfold joinP
  rw [hb]
  simp only [Bool.false_eq_true, if_false, if_neg hne]
  cases out with
  | nil => exact absurd rfl hne
  | cons x xs =>
    by_cases hl : (x :: xs : PyStr).getLast? = some '/'
    · rw [if_pos hl]
      cases b <;> simpa [isAbsP] using hout
    · rw [if_neg hl]
      simpa [isAbsP] using hout

theorem resolveDots_mid_empty (A B : List PyStr) :
    resolveDots (A ++ [[]] ++ B) = resolveDots (A ++ B) := by
  unfold resolveDots
  rw [ndGo_append (A ++ [[]]) B, ndGo_append A [[]], ndGo_append A B]
  rfl

theorem join_canon (cwd : List PyStr) (out b : PyStr) (hout : isAbsP out = true)
    (hb : isAbsP b = false) :
    realpathC cwd (joinP out b) = resolveDots (splitK out ++ splitK b) := by
  have hne : out ≠ [] := by
    intro hc
    rw [hc] at hout
    simp [isAbsP] at hout
  have habs := joinP_isAbs out b hout hb
  unfold joinP at habs ⊢
  rw [hb] at habs ⊢
  simp only [Bool.false_eq_true, if_false, if_neg hne] at habs ⊢
  by_cases hl : out.getLast? = some '/'
  · rw [if_pos hl] at habs ⊢
    obtain ⟨o', ho⟩ : ∃ o', out = o' ++ ['/'] := by
      refine ⟨out.dropLast, ?_⟩
      have h1 : out = out.dropLast ++ [out.getLast hne] := (List.dropLast_append_getLast hne).symm
      have h2 : out.getLast hne = '/' := by
        have := List.getLast?_eq_getLast out hne
        rw [hl] at this
        injection this with h3
        exact h3.symm
      rw [← h2]
      exact h1
    rw [ho]
    unfold realpathC
    rw [if_pos (by rw [← ho]; exact habs), List.nil_append]
    rw [List.append_assoc, List.singleton_append, splitK_append]
    rw [show splitK (o' ++ ['/']) = splitK o' ++ [[]] by
      rw [show (o' ++ ['/'] : PyStr) = o' ++ '/' :: [] from rfl, splitK_append]
      rfl]
    exact (resolveDots_mid_empty (splitK o') (splitK b)).symm
  · rw [if_neg hl] at habs ⊢
    unfold realpathC
    rw [if_pos habs, List.nil_append, splitK_append]

theorem extractStep_other (cwd : List PyStr) (out : PyStr) (st : ExtractSt) (m : TarMember)
    (h : m.kind = MKind.other) : extractStep cwd out st m = st := by
  simp [extractStep, h]

theorem extractStep_escaping (cwd : List PyStr) (out : PyStr) (st : ExtractSt) (m : TarMember)
    (h1 : m.kind ≠ MKind.other)
    (h2 : is_safe_path cwd out (joinP out (lstripSlash m.name)) = false) :
    extractStep cwd out st m = { st with warned := st.warned ++ [m.name] } := by
  simp [extractStep, h1, h2]

theorem extractStep_dir (cwd : List PyStr) (out : PyStr) (st : ExtractSt) (m : TarMember)
    (h1 : m.kind = MKind.dir)
    (h2 : is_safe_path cwd out (joinP out (lstripSlash m.name)) = true) :
    extractStep cwd out st m =
      { st with fs := mkdirs st.fs (realpathC cwd (joinP out (lstripSlash m.name))) } := by
  have : m.kind ≠ MKind.other := by rw [h1]; intro hc; cases hc
  simp [extractStep, this, h2, h1]

theorem extractStep_reg_skip (cwd : List PyStr) (out : PyStr) (st : ExtractSt) (m : TarMember)
    (h1 : m.kind = MKind.reg)
    (h2 : is_safe_path cwd out (joinP out (lstripSlash m.name)) = true)
    (h3 : (lookupFile st.fs (realpathC cwd (joinP out (lstripSlash m.name)))).map
        (fun fd => fd.size) = some m.size) :
    extractStep cwd out st m = { st with skipped := st.skipped + 1 } := by
  have hno : m.kind ≠ MKind.other := by rw [h1]; intro hc; cases hc
  have hnd : ¬ m.kind = MKind.dir := by rw [h1]; intro hc; cases hc
  simp [extractStep, hno, h2, hnd, h3]

theorem extractStep_reg_write (cwd : List PyStr) (out : PyStr) (st : ExtractSt) (m : TarMember)
    (h1 : m.kind = MKind.reg)
    (h2 : is_safe_path cwd out (joinP out (lstripSlash m.name)) = true)
    (h3 : ¬ (lookupFile st.fs (realpathC cwd (joinP out (lstripSlash m.name)))).map
        (fun fd => fd.size) = some m.size) :
    extractStep cwd out st m =
      { st with
          fs := setFile (mkdirs st.fs (realpathC cwd (dirnameP (joinP out (lstripSlash m.name)))))
            (realpathC cwd (joinP out (lstripSlash m.name))) ⟨m.size, none⟩
          count := st.count + 1 } := by
  have hno : m.kind ≠ MKind.other := by rw [h1]; intro hc; cases hc
  have hnd : ¬ m.kind = MKind.dir := by rw [h1]; intro hc; cases hc
  simp [extractStep, hno, h2, hnd, h3]

/-! ## Frame property of the extraction step: nothing is written outside
the canonical output root -/

theorem extractStep_frame (cwd : List PyStr) (out : PyStr) (st : ExtractSt) (m : TarMember)
    (hcwd : ∀ c ∈ cwd, '/' ∉ c) (hout : isAbsP out = true)
    (hroot : ∀ q, q <+: realpathC cwd out → q ∈ st.fs.dirs) :
    (∀ q, q <+: realpathC cwd out → q ∈ (extractStep cwd out st m).fs.dirs) ∧
    (∀ p, ¬ (realpathC cwd out <+: p) →
      lookupFile (extractStep cwd out st m).fs p = lookupFile st.fs p ∧
      (p ∈ (extractStep cwd out st m).fs.dirs ↔ p ∈ st.fs.dirs)) := by
  by_cases hk : m.kind = MKind.other
  · rw [extractStep_other cwd out st m hk]
    exact ⟨hroot, fun p _ => ⟨rfl, Iff.rfl⟩⟩
  · cases hs : is_safe_path cwd out (joinP out (lstripSlash m.name)) with
    | false =>
      rw [extractStep_escaping cwd out st m hk hs]
      exact ⟨hroot, fun p _ => ⟨rfl, Iff.rfl⟩⟩
    | true =>
      obtain ⟨hrne, hrpfx, hrneq⟩ :=
        (is_safe_path_iff cwd out (joinP out (lstripSlash m.name)) hcwd).mp hs
      have habsT : isAbsP (joinP out (lstripSlash m.name)) = true :=
        joinP_isAbs out _ hout (lstripSlash_not_abs _)
      have hcmp : ∀ q, q <+: realpathC cwd (joinP out (lstripSlash m.name)) →
          q ∈ st.fs.dirs ∨ realpathC cwd out <+: q := by
        intro q hq
        rcases List.prefix_or_prefix_of_prefix hq hrpfx with h | h
        · exact Or.inl (hroot q h)
        · exact Or.inr h
      by_cases hd : m.kind = MKind.dir
      · rw [extractStep_dir cwd out st m hd hs]
        refine ⟨fun q hq => mem_dirs_mkdirs_of_mem _ _ _ (hroot q hq), fun p hp => ?_⟩
        refine ⟨lookupFile_mkdirs _ _ _, ?_⟩
        rw [show ({ st with fs := mkdirs st.fs (realpathC cwd (joinP out (lstripSlash m.name))) }
          : ExtractSt).fs = mkdirs st.fs (realpathC cwd (joinP out (lstripSlash m.name)))
          from rfl, mem_dirs_mkdirs]
        constructor
        · rintro (h | h)
          · exact h
          · rcases hcmp p h with h' | h'
            · exact h'
            · exact absurd h' hp
        · exact Or.inl
      · have hr : m.kind = MKind.reg := by
          cases hmk : m.kind
          · rfl
          · exact absurd hmk hd
          · exact absurd hmk hk
        by_cases hm : (lookupFile st.fs (realpathC cwd (joinP out (lstripSlash m.name)))).map
            (fun fd => fd.size) = some m.size
        · rw [extractStep_reg_skip cwd out st m hr hs hm]
          exact ⟨hroot, fun p _ => ⟨rfl, Iff.rfl⟩⟩
        · rw [extractStep_reg_write cwd out st m hr hs hm]
          have hD : ∀ q, q <+: realpathC cwd (dirnameP (joinP out (lstripSlash m.name))) →
              q ∈ st.fs.dirs ∨ realpathC cwd out <+: q := by
            intro q hq
            rcases dirname_cases cwd (joinP out (lstripSlash m.name)) habsT with
              ⟨w, _, hTeq⟩ | hTeq | hTeq
            · have hDp : realpathC cwd (dirnameP (joinP out (lstripSlash m.name))) <+:
                  realpathC cwd (joinP out (lstripSlash m.name)) := by
                rw [hTeq]
                exact List.prefix_append _ _
              exact hcmp q (hq.trans hDp)
            · exact hcmp q (hTeq ▸ hq)
            · have hDne : realpathC cwd (dirnameP (joinP out (lstripSlash m.name))) ≠ [] := by
                intro hc
                rw [hc] at hTeq
                simp only [List.dropLast_nil] at hTeq
                rw [hTeq] at hrpfx
                rw [List.prefix_nil] at hrpfx
                exact hrne hrpfx
              have hDdec : realpathC cwd (dirnameP (joinP out (lstripSlash m.name))) =
                  realpathC cwd (joinP out (lstripSlash m.name)) ++
                    [(realpathC cwd (dirnameP (joinP out (lstripSlash m.name)))).getLast hDne] := by
                conv_lhs => rw [(List.dropLast_append_getLast hDne).symm]
                rw [← hTeq]
              rcases List.prefix_concat_iff.mp (hDdec ▸ hq) with h | h
              · right
                rw [h]
                exact hrpfx.trans (List.prefix_append _ _)
              · exact hcmp q h
          refine ⟨fun q hq => mem_dirs_mkdirs_of_mem _ _ _ (hroot q hq), fun p hp => ?_⟩
          have hpT : p ≠ realpathC cwd (joinP out (lstripSlash m.name)) := by
            intro hc
            subst hc
            exact hp hrpfx
          constructor
          · rw [show ({ st with
                fs := setFile (mkdirs st.fs
                  (realpathC cwd (dirnameP (joinP out (lstripSlash m.name)))))
                  (realpathC cwd (joinP out (lstripSlash m.name))) ⟨m.size, none⟩
                count := st.count + 1 } : ExtractSt).fs = setFile (mkdirs st.fs
                  (realpathC cwd (dirnameP (joinP out (lstripSlash m.name)))))
                  (realpathC cwd (joinP out (lstripSlash m.name))) ⟨m.size, none⟩ from rfl]
            rw [lookupFile_setFile_ne _ _ _ _ hpT, lookupFile_mkdirs]
          · rw [show ({ st with
                fs := setFile (mkdirs st.fs
                  (realpathC cwd (dirnameP (joinP out (lstripSlash m.name)))))
                  (realpathC cwd (joinP out (lstripSlash m.name))) ⟨m.size, none⟩
                count := st.count + 1 } : ExtractSt).fs.dirs = (mkdirs st.fs
                  (realpathC cwd (dirnameP (joinP out (lstripSlash m.name))))).dirs from rfl]
            rw [mem_dirs_mkdirs]
            constructor
            · rintro (h | h)
              · exact h
              · rcases hD p h with h' | h'
                · exact h'
                · exact absurd h' hp
            · exact Or.inl

theorem extract_fold_frame (cwd : List PyStr) (out : PyStr)
    (hcwd : ∀ c ∈ cwd, '/' ∉ c) (hout : isAbsP out = true) :
    ∀ (members : List TarMember) (st : ExtractSt),
    (∀ q, q <+: realpathC cwd out → q ∈ st.fs.dirs) →
    (∀ q, q <+: realpathC cwd out → q ∈ (members.foldl (extractStep cwd out) st).fs.dirs) ∧
    (∀ p, ¬ (realpathC cwd out <+: p) →
      lookupFile (members.foldl (extractStep cwd out) st).fs p = lookupFile st.fs p ∧
      (p ∈ (members.foldl (extractStep cwd out) st).fs.dirs ↔ p ∈ st.fs.dirs)) := by
  intro members
  induction members with
  | nil => intro st h; exact ⟨h, fun p _ => ⟨rfl, Iff.rfl⟩⟩
  | cons m ms ih =>
    intro st hroot
    obtain ⟨h1, h2⟩ := extractStep_frame cwd out st m hcwd hout hroot
    obtain ⟨h3, h4⟩ := ih (extractStep cwd out st m) h1
    refine ⟨h3, fun p hp => ?_⟩
    obtain ⟨h5, h6⟩ := h4 p hp
    obtain ⟨h7, h8⟩ := h2 p hp
    exact ⟨h5.trans h7, h6.trans h8⟩

/-! ## The unsafe members are skipped; everything else proceeds as if
they were absent -/

/-- A member that triggers the `[WARN] Skip unsafe path` branch: a
    regular-file or directory member whose guarded destination fails
    `is_safe_path`. -/
def unsafeKept (cwd : List PyStr) (out : PyStr) (m : TarMember) : Bool :=
  decide (m.kind ≠ MKind.other) &&
    ! is_safe_path cwd out (joinP out (lstripSlash m.name))

theorem extractStep_shift (cwd : List PyStr) (out : PyStr) (fs : FS) (c k : Nat) (w : List PyStr)
    (m : TarMember) :
    extractStep cwd out (ExtractSt.mk fs c k w) m =
      ExtractSt.mk (extractStep cwd out (ExtractSt.mk fs c k []) m).fs
        (extractStep cwd out (ExtractSt.mk fs c k []) m).count
        (extractStep cwd out (ExtractSt.mk fs c k []) m).skipped
        (w ++ (extractStep cwd out (ExtractSt.mk fs c k []) m).warned) := by
  by_cases hk : m.kind = MKind.other
  · rw [extractStep_other _ _ _ _ hk, extractStep_other _ _ _ _ hk]
    simp
  · cases hs : is_safe_path cwd out (joinP out (lstripSlash m.name)) with
    | false =>
      rw [extractStep_escaping _ _ _ _ hk hs, extractStep_escaping _ _ _ _ hk hs]
      simp
    | true =>
      by_cases hd : m.kind = MKind.dir
      · rw [extractStep_dir _ _ _ _ hd hs, extractStep_dir _ _ _ _ hd hs]
        simp
      · have hr : m.kind = MKind.reg := by
          cases hmk : m.kind
          · rfl
          · exact absurd hmk hd
          · exact absurd hmk hk
        by_cases hm : (lookupFile fs (realpathC cwd (joinP out (lstripSlash m.name)))).map
            (fun fd => fd.size) = some m.size
        · rw [extractStep_reg_skip _ _ _ _ hr hs hm, extractStep_reg_skip _ _ _ _ hr hs hm]
          simp
        · rw [extractStep_reg_write _ _ _ _ hr hs hm, extractStep_reg_write _ _ _ _ hr hs hm]
          simp

theorem extract_fold_shift (cwd : List PyStr) (out : PyStr) :
    ∀ (ms : List TarMember) (fs : FS) (c k : Nat) (w : List PyStr),
    ms.foldl (extractStep cwd out) (ExtractSt.mk fs c k w) =
      ExtractSt.mk (ms.foldl (extractStep cwd out) (ExtractSt.mk fs c k [])).fs
        (ms.foldl (extractStep cwd out) (ExtractSt.mk fs c k [])).count
        (ms.foldl (extractStep cwd out) (ExtractSt.mk fs c k [])).skipped
        (w ++ (ms.foldl (extractStep cwd out) (ExtractSt.mk fs c k [])).warned) := by
  intro ms
  induction ms with
  | nil => intro fs c k w; simp
  | cons m ms ih =>
    intro fs c k w
    rw [List.foldl_cons, List.foldl_cons, extractStep_shift cwd out fs c k w m]
    cases hstep : extractStep cwd out (ExtractSt.mk fs c k []) m with
    | mk F C K d =>
      rw [ih F C K (w ++ d), ih F C K d]
      simp [List.append_assoc]

theorem extractStep_unsafeKept_true (cwd : List PyStr) (out : PyStr) (st : ExtractSt)
    (m : TarMember) (h : unsafeKept cwd out m = true) :
    extractStep cwd out st m = { st with warned := st.warned ++ [m.name] } := by
  have h1 : m.kind ≠ MKind.other := by
    have := (Bool.and_eq_true _ _).mp h |>.1
    simpa using this
  have h2 : is_safe_path cwd out (joinP out (lstripSlash m.name)) = false := by
    have := (Bool.and_eq_true _ _).mp h |>.2
    simpa using this
  exact extractStep_escaping cwd out st m h1 h2

theorem extractStep_unsafeKept_false_warned (cwd : List PyStr) (out : PyStr) (st : ExtractSt)
    (m : TarMember) (h : unsafeKept cwd out m = false) :
    (extractStep cwd out st m).warned = st.warned := by
  by_cases hk : m.kind = MKind.other
  · rw [extractStep_other _ _ _ _ hk]
  · cases hs : is_safe_path cwd out (joinP out (lstripSlash m.name)) with
    | false =>
      exfalso
      have : unsafeKept cwd out m = true := by
        unfold unsafeKept
        rw [hs]
        simpa using hk
      rw [this] at h
      cases h
    | true =>
      by_cases hd : m.kind = MKind.dir
      · rw [extractStep_dir _ _ _ _ hd hs]
      · have hr : m.kind = MKind.reg := by
          cases hmk : m.kind
          · rfl
          · exact absurd hmk hd
          · exact absurd hmk hk
        by_cases hm : (lookupFile st.fs (realpathC cwd (joinP out (lstripSlash m.name)))).map
            (fun fd => fd.size) = some m.size
        · rw [extractStep_reg_skip _ _ _ _ hr hs hm]
        · rw [extractStep_reg_write _ _ _ _ hr hs hm]

theorem extract_fold_warned_eq (cwd : List PyStr) (out : PyStr) :
    ∀ (ms : List TarMember) (st : ExtractSt),
    (ms.foldl (extractStep cwd out) st).warned =
      st.warned ++ (ms.filter (unsafeKept cwd out)).map (fun m => m.name) := by
  intro ms
  induction ms with
  | nil => intro st; simp
  | cons m ms ih =>
    intro st
    rw [List.foldl_cons]
    cases hu : unsafeKept cwd out m with
    | true =>
      rw [extractStep_unsafeKept_true _ _ _ _ hu, ih, List.filter_cons_of_pos hu]
      simp
    | false =>
      rw [ih, List.filter_cons_of_neg (by simp [hu]),
        extractStep_unsafeKept_false_warned _ _ _ _ hu]

theorem extract_fold_filter (cwd : List PyStr) (out : PyStr) :
    ∀ (ms : List TarMember) (st : ExtractSt),
    ((ms.filter (fun m => ! unsafeKept cwd out m)).foldl (extractStep cwd out) st).fs =
        (ms.foldl (extractStep cwd out) st).fs ∧
      ((ms.filter (fun m => ! unsafeKept cwd out m)).foldl (extractStep cwd out) st).count =
        (ms.foldl (extractStep cwd out) st).count ∧
      ((ms.filter (fun m => ! unsafeKept cwd out m)).foldl (extractStep cwd out) st).skipped =
        (ms.foldl (extractStep cwd out) st).skipped := by
  intro ms
  induction ms with
  | nil => intro st; exact ⟨rfl, rfl, rfl⟩
  | cons m ms ih =>
    intro st
    cases hu : unsafeKept cwd out m with
    | true =>
      rw [List.filter_cons_of_neg (by simp [hu]), List.foldl_cons,
        extractStep_unsafeKept_true _ _ _ _ hu]
      cases st with
      | mk fs c k w =>
        have hW : ({ ExtractSt.mk fs c k w with warned := w ++ [m.name] } : ExtractSt) =
            ExtractSt.mk fs c k (w ++ [m.name]) := rfl
        rw [hW]
        rw [extract_fold_shift cwd out ms fs c k (w ++ [m.name])]
        rw [extract_fold_shift cwd out (ms.filter (fun m => ! unsafeKept cwd out m)) fs c k w]
        have hI := ih (ExtractSt.mk fs c k [])
        exact ⟨hI.1, hI.2.1, hI.2.2⟩
    | false =>
      rw [List.filter_cons_of_pos (by simp [hu]), List.foldl_cons, List.foldl_cons]
      exact ih (extractStep cwd out st m)

theorem extract_year_tar_unsafe_abort (cwd : List PyStr) (fs : FS) (tar_path year_dir : PyStr)
    (ms : List TarMember) (m : TarMember)
    (hnc : hasChildren (mkdirs fs (realpathC cwd year_dir)) (realpathC cwd year_dir) = false)
    (hview : (lookupFile fs (realpathC cwd tar_path)).bind (fun fd => fd.tarView) = some ms)
    (hfind : ms.find? (fun m => ! is_within_directory cwd year_dir (joinP year_dir m.name))
      = some m) :
    extract_year_tar cwd fs tar_path year_dir =
      ⟨mkdirs fs (realpathC cwd year_dir), Except.error (unsafeMsg m.name)⟩ := by
  unfold extract_year_tar
  rw [if_neg (by rw [hnc]; intro hc; cases hc)]
  rw [lookupFile_mkdirs, hview]
  simp only [yearOpen]
  rw [hfind]
  rfl

/-! ## Claim C1 -/

/-- Fixture: an archive member escaping via a parent-directory segment. -/
def c1Evil : TarMember := ⟨pys "../evil", MKind.reg, 5⟩

/-- Fixture: an ordinary member. -/
def c1Good : TarMember := ⟨pys "ok.csv", MKind.reg, 3⟩

/-- Fixture: archive path and output directory of the ISD extractor. -/
def c1TarP : PyStr := joinP RAW_DIRP (pys "2000.tar.gz")

/-- Fixture: year directory of the ISD extractor. -/
def c1YdP : PyStr := joinP EXTRACT_DIRP (pys "2000")

/-- Fixture: filesystem holding the crafted archive. -/
def c1Fs : FS := setFile (FS.mk [] []) (realpathC [] c1TarP) ⟨10, some [c1Evil, c1Good]⟩

/-- Fixture: filesystem for the GSOD extractor, output root present. -/
def c1FsG : FS := FS.mk [] (realpathC [] (pys "/data/out")).inits

/-- C1, counterexample: against `extract_year_tar` (cited by the claim),
    an archive containing `../evil` and `ok.csv` is aborted with an
    `Unsafe path in tar` exception, and the innocent member `ok.csv` is
    not extracted — contradicting "rejects that member by logging and
    skipping it, does not abort the archive, and completes extraction of
    every other member". -/
theorem C1_counterexample :
    (extract_year_tar [] c1Fs c1TarP c1YdP).out =
        Except.error (unsafeMsg (pys "../evil")) ∧
      lookupFile (extract_year_tar [] c1Fs c1TarP c1YdP).yfs
        (realpathC [] (joinP c1YdP (pys "ok.csv"))) = none := by
  constructor
  · decide
  · decide

/-- C1, amended.  First part (`safe_extract`, the GSOD streaming
    extractor): every member whose guarded destination escapes the output
    root is logged and skipped, nothing outside the canonical output root
    is created or modified, and the run is otherwise identical (files,
    `count`, `skipped`) to extracting the archive with the escaping
    members removed — the archive is not aborted.  Second part
    (`extract_year_tar`, the ISD extractor): a member failing
    `is_within_directory` makes the whole archive abort with an
    `Unsafe path in tar` error before any member is extracted; no file is
    written at all (only the output directory itself is created), so
    nothing is written outside the output root either. -/
theorem C1_unsafe_member_handling :
    (∀ (cwd : List PyStr) (out_dir : PyStr) (fs : FS) (members : List TarMember),
      (∀ c ∈ cwd, '/' ∉ c) → isAbsP out_dir = true →
      (∀ q, q <+: realpathC cwd out_dir → q ∈ fs.dirs) →
      (∀ p, ¬ (realpathC cwd out_dir <+: p) →
        lookupFile (safe_extract cwd fs members out_dir).fs p = lookupFile fs p ∧
        (p ∈ (safe_extract cwd fs members out_dir).fs.dirs ↔ p ∈ fs.dirs)) ∧
      (safe_extract cwd fs members out_dir).warned =
        (members.filter (unsafeKept cwd out_dir)).map (fun m => m.name) ∧
      (safe_extract cwd fs members out_dir).fs =
        (safe_extract cwd fs (members.filter (fun m => ! unsafeKept cwd out_dir m)) out_dir).fs ∧
      (safe_extract cwd fs members out_dir).count =
        (safe_extract cwd fs (members.filter (fun m => ! unsafeKept cwd out_dir m))
          out_dir).count ∧
      (safe_extract cwd fs members out_dir).skipped =
        (safe_extract cwd fs (members.filter (fun m => ! unsafeKept cwd out_dir m))
          out_dir).skipped) ∧
    (∀ (cwd : List PyStr) (fs : FS) (tar_path year_dir : PyStr) (ms : List TarMember)
        (m : TarMember),
      hasChildren (mkdirs fs (realpathC cwd year_dir)) (realpathC cwd year_dir) = false →
      (lookupFile fs (realpathC cwd tar_path)).bind (fun fd => fd.tarView) = some ms →
      ms.find? (fun m => ! is_within_directory cwd year_dir (joinP year_dir m.name)) = some m →
      (extract_year_tar cwd fs tar_path year_dir).out = Except.error (unsafeMsg m.name) ∧
      (extract_year_tar cwd fs tar_path year_dir).yfs.files = fs.files) := by
  constructor
  · intro cwd out_dir fs members hcwd hout hroot
    obtain ⟨_, hframe⟩ :=
      extract_fold_frame cwd out_dir hcwd hout members (ExtractSt.mk fs 0 0 []) hroot
    refine ⟨hframe, ?_, ?_, ?_, ?_⟩
    · exact extract_fold_warned_eq cwd out_dir members (ExtractSt.mk fs 0 0 [])
    · exact (extract_fold_filter cwd out_dir members (ExtractSt.mk fs 0 0 [])).1.symm
    · exact (extract_fold_filter cwd out_dir members (ExtractSt.mk fs 0 0 [])).2.1.symm
    · exact (extract_fold_filter cwd out_dir members (ExtractSt.mk fs 0 0 [])).2.2.symm
  · intro cwd fs tar_path year_dir ms m hnc hview hfind
    rw [extract_year_tar_unsafe_abort cwd fs tar_path year_dir ms m hnc hview hfind]
    exact ⟨rfl, rfl⟩

/-- C1, witness: concrete instantiation of the amended theorem on the
    crafted archive — the escaping member is warned about, the innocent
    sibling produces the same state as if the escaping member were
    absent, an outside path is untouched, and the ISD extractor aborts. -/
theorem C1_witness :
    (lookupFile (safe_extract [] c1FsG [c1Evil, c1Good] (pys "/data/out")).fs [pys "etc"]
        = lookupFile c1FsG [pys "etc"]) ∧
      (safe_extract [] c1FsG [c1Evil, c1Good] (pys "/data/out")).warned = [pys "../evil"] ∧
      (extract_year_tar [] c1Fs c1TarP c1YdP).out =
        Except.error (unsafeMsg (pys "../evil")) := by
  have h1 := C1_unsafe_member_handling.1 [] (pys "/data/out") c1FsG [c1Evil, c1Good]
    (by simp) (by decide) (fun q hq => (List.mem_inits _ _).mpr hq)
  refine ⟨(h1.1 [pys "etc"] (by decide)).1, h1.2.1.trans (by decide), ?_⟩
  exact (C1_unsafe_member_handling.2 [] c1Fs c1TarP c1YdP [c1Evil, c1Good] c1Evil
    (by decide) (by decide) (by decide)).1

/-! ## Claim C3 -/

/-- C3, counterexample: when the candidate equals the root, the canonical
    candidate is (trivially) equal to the canonical root, yet
    `is_safe_path` returns `false` — `realpath(path)` does not start with
    `realpath(basedir) + os.sep`.  This refutes "returns true if and only
    if the canonical form of the candidate is equal to or a descendant of
    the canonical form of the root". -/
theorem C3_counterexample :
    is_safe_path [] (pys "/data/out") (pys "/data/out") = false ∧
      realpathC [] (pys "/data/out") <+: realpathC [] (pys "/data/out") :=
  ⟨by decide, List.prefix_refl _⟩

/-- C3, amended: with a separator-free current directory (canonicalizing
    lexically, no symbolic links present), the commonpath-based predicate
    `is_within_directory` returns true iff the canonical candidate is
    equal to or a descendant of the canonical root, while the
    `startswith`-based predicate `is_safe_path` returns true iff the
    canonical candidate is a strict descendant of a nonempty canonical
    root — in particular it returns false when the two canonical paths
    are equal, and always false when the root canonicalizes to the
    filesystem root `/`. -/
theorem C3_pathguard_characterization :
    ∀ (cwd : List PyStr) (root cand : PyStr), (∀ c ∈ cwd, '/' ∉ c) →
      ((is_within_directory cwd root cand = true ↔
          abspathC cwd root <+: abspathC cwd cand) ∧
        (is_safe_path cwd root cand = true ↔
          realpathC cwd root ≠ [] ∧ realpathC cwd root <+: realpathC cwd cand ∧
            realpathC cwd root ≠ realpathC cwd cand)) :=
  fun cwd root cand hcwd =>
    ⟨is_within_directory_iff cwd root cand hcwd, is_safe_path_iff cwd root cand hcwd⟩

/-- C3, witness: the amended characterization applied at a concrete root
    and candidate. -/
theorem C3_witness :
    (is_within_directory [] (pys "/d") (pys "/d/x") = true ↔
        abspathC [] (pys "/d") <+: abspathC [] (pys "/d/x")) ∧
      (is_safe_path [] (pys "/d") (pys "/d/x") = true ↔
        realpathC [] (pys "/d") ≠ [] ∧
          realpathC [] (pys "/d") <+: realpathC [] (pys "/d/x") ∧
          realpathC [] (pys "/d") ≠ realpathC [] (pys "/d/x")) :=
  C3_pathguard_characterization [] (pys "/d") (pys "/d/x") (by simp)

/-! ## Equations for the download phases -/

theorem dlStream_streamFail (cwd : List PyStr) (d t : PyStr) (b tot : Nat)
    (v : Option (List TarMember)) (fs : FS) (chunks : List Nat) :
    dlStream cwd d t b tot v fs (GetR.stream chunks false) =
      (setFile (mkdirs fs (realpathC cwd (dirnameP t))) (realpathC cwd t)
        ⟨b + chunks.foldl (fun a b => a + b) 0, none⟩, Except.error DErr.streamFail) := by
  simp [dlStream]

theorem dlStream_incomplete (cwd : List PyStr) (d t : PyStr) (b tot : Nat)
    (v : Option (List TarMember)) (fs : FS) (chunks : List Nat)
    (hinc : tot ≠ 0 ∧ b + chunks.foldl (fun a b => a + b) 0 < tot) :
    dlStream cwd d t b tot v fs (GetR.stream chunks true) =
      (setFile (mkdirs fs (realpathC cwd (dirnameP t))) (realpathC cwd t)
        ⟨b + chunks.foldl (fun a b => a + b) 0, v⟩, Except.error DErr.incomplete) := by
  simp [dlStream, hinc]

theorem dlStream_ok (cwd : List PyStr) (d t : PyStr) (b tot : Nat)
    (v : Option (List TarMember)) (fs : FS) (chunks : List Nat)
    (hinc : ¬ (tot ≠ 0 ∧ b + chunks.foldl (fun a b => a + b) 0 < tot)) :
    dlStream cwd d t b tot v fs (GetR.stream chunks true) =
      (setFile (removeFile (setFile (mkdirs fs (realpathC cwd (dirnameP t)))
          (realpathC cwd t) ⟨b + chunks.foldl (fun a b => a + b) 0, v⟩) (realpathC cwd t))
        (realpathC cwd d) ⟨b + chunks.foldl (fun a b => a + b) 0, v⟩, Except.ok ()) := by
  simp [dlStream, hinc]

/-! ## Claim C2 -/

/-- C2: the destination path of a resumable fetch is only ever populated
    by the final atomic rename.  Whenever the fetch fails — HEAD or GET
    raising, a mid-stream exception, or the `Incomplete download` check —
    the destination entry is exactly what it was before the call (in
    particular, if absent it is not created); on success the destination
    holds the renamed file, whose size covers the advertised total when
    one was advertised.  The hypothesis separates the canonical `.part`
    path from the canonical destination path (they differ for every sane
    destination name). -/
theorem C2_atomic_publish :
    ∀ (cwd : List PyStr) (srv : Server) (dest_path : PyStr) (fs : FS),
      realpathC cwd (dest_path ++ pys ".part") ≠ realpathC cwd dest_path →
      ((download_with_resume cwd srv dest_path fs).2 ≠ Except.ok () →
        lookupFile (download_with_resume cwd srv dest_path fs).1 (realpathC cwd dest_path) =
          lookupFile fs (realpathC cwd dest_path)) ∧
      ((download_with_resume cwd srv dest_path fs).2 = Except.ok () →
        ∃ fd, lookupFile (download_with_resume cwd srv dest_path fs).1
            (realpathC cwd dest_path) = some fd ∧
          ∀ h, srv.headOk = some h →
            (h.contentLength.getD 0 ≠ 0 → h.contentLength.getD 0 ≤ fd.size)) := by
  intro cwd srv dest_path fs hne
  have hds : realpathC cwd dest_path ≠ realpathC cwd (dest_path ++ pys ".part") := Ne.symm hne
  unfold download_with_resume
  cases hh : srv.headOk with
  | none =>
    refine ⟨fun _ => rfl, fun hok => ?_⟩
    exact absurd hok (by simp [dlHead])
  | some h =>
    simp only [dlHead]
    cases hb : srv.body (if partSize cwd dest_path fs > 0 then
        some (partSize cwd dest_path fs) else none) with
    | fail =>
      refine ⟨fun _ => rfl, fun hok => ?_⟩
      exact absurd hok (by simp [dlStream])
    | stream chunks complete =>
      cases complete with
      | false =>
        rw [dlStream_streamFail]
        refine ⟨fun _ => ?_, fun hok => ?_⟩
        · exact (lookupFile_setFile_ne _ _ _ _ hds).trans (lookupFile_mkdirs _ _ _)
        · exact absurd hok (by simp)
      | true =>
        by_cases hinc : h.contentLength.getD 0 ≠ 0 ∧
            (if partSize cwd dest_path fs > 0 ∧ h.acceptRanges.getD noneStr ≠ noneStr then
              partSize cwd dest_path fs else 0) +
              chunks.foldl (fun a b => a + b) 0 < h.contentLength.getD 0
        · rw [dlStream_incomplete _ _ _ _ _ _ _ _ hinc]
          refine ⟨fun _ => ?_, fun hok => ?_⟩
          · exact (lookupFile_setFile_ne _ _ _ _ hds).trans (lookupFile_mkdirs _ _ _)
          · exact absurd hok (by simp)
        · rw [dlStream_ok _ _ _ _ _ _ _ _ hinc]
          refine ⟨fun hne2 => absurd rfl hne2, fun _ => ?_⟩
          refine ⟨_, lookupFile_setFile_self _ _ _, ?_⟩
          intro h' hh' htot
          injection hh' with hh2
          subst hh2
          push_neg at hinc
          have := hinc htot
          simp only []
          omega

/-- C2, witness: the theorem applied to a concrete successful fetch (the
    destination holds all ten advertised bytes) and to a concrete failed
    probe (the destination stays absent). -/
theorem C2_witness :
    (∃ fd, lookupFile (download_with_resume []
        ⟨some ⟨some 10, some (pys "bytes")⟩, fun _ => GetR.stream [4, 6] true, some []⟩
        (joinP RAW_DIRP (pys "2000.tar.gz")) (FS.mk [] [])).1
        (realpathC [] (joinP RAW_DIRP (pys "2000.tar.gz"))) = some fd ∧
      ∀ h, (⟨some ⟨some 10, some (pys "bytes")⟩, fun _ => GetR.stream [4, 6] true,
          some []⟩ : Server).headOk = some h →
        (h.contentLength.getD 0 ≠ 0 → h.contentLength.getD 0 ≤ fd.size)) ∧
    lookupFile (download_with_resume []
        ⟨none, fun _ => GetR.fail, none⟩
        (joinP RAW_DIRP (pys "2000.tar.gz")) (FS.mk [] [])).1
        (realpathC [] (joinP RAW_DIRP (pys "2000.tar.gz"))) =
      lookupFile (FS.mk [] []) (realpathC [] (joinP RAW_DIRP (pys "2000.tar.gz"))) := by
  constructor
  · exact (C2_atomic_publish []
      ⟨some ⟨some 10, some (pys "bytes")⟩, fun _ => GetR.stream [4, 6] true, some []⟩
      (joinP RAW_DIRP (pys "2000.tar.gz")) (FS.mk [] []) (by decide)).2 (by decide)
  · exact (C2_atomic_publish [] ⟨none, fun _ => GetR.fail, none⟩
      (joinP RAW_DIRP (pys "2000.tar.gz")) (FS.mk [] []) (by decide)).1 (by decide)

/-! ## Claim C5 -/

/-- C5: when the probe succeeded and the response stream ended normally
    after delivering `chunks`, the fetch raises `Incomplete download`
    exactly when a nonzero total was advertised and the bytes written
    (resume offset plus streamed bytes) fall short of it, and returns
    success exactly otherwise. -/
theorem C5_incomplete_error_iff :
    ∀ (cwd : List PyStr) (srv : Server) (dest_path : PyStr) (fs : FS) (h : HeadR)
      (chunks : List Nat),
      srv.headOk = some h →
      (∀ r, srv.body r = GetR.stream chunks true) →
      (((download_with_resume cwd srv dest_path fs).2 = Except.error DErr.incomplete) ↔
        h.contentLength.getD 0 ≠ 0 ∧
          resumeBase cwd dest_path fs h + chunks.foldl (fun a b => a + b) 0 <
            h.contentLength.getD 0) ∧
      (((download_with_resume cwd srv dest_path fs).2 = Except.ok ()) ↔
        ¬ (h.contentLength.getD 0 ≠ 0 ∧
          resumeBase cwd dest_path fs h + chunks.foldl (fun a b => a + b) 0 <
            h.contentLength.getD 0)) := by
  intro cwd srv dest_path fs h chunks hh hbody
  unfold download_with_resume
  rw [hh]
  simp only [dlHead]
  rw [hbody]
  by_cases hinc : h.contentLength.getD 0 ≠ 0 ∧
      (if partSize cwd dest_path fs > 0 ∧ h.acceptRanges.getD noneStr ≠ noneStr then
        partSize cwd dest_path fs else 0) +
        chunks.foldl (fun a b => a + b) 0 < h.contentLength.getD 0
  · rw [dlStream_incomplete _ _ _ _ _ _ _ _ hinc]
    constructor
    · exact ⟨fun _ => hinc, fun _ => rfl⟩
    · constructor
      · intro hc
        cases hc
      · intro hc
        exact absurd hinc hc
  · rw [dlStream_ok _ _ _ _ _ _ _ _ hinc]
    constructor
    · constructor
      · intro hc
        cases hc
      · intro hc
        exact absurd hc hinc
    · exact ⟨fun _ => hinc, fun _ => rfl⟩

/-- C5, witness: a transfer advertising ten bytes that delivers only four
    raises the incomplete error; delivering all ten succeeds. -/
theorem C5_witness :
    ((download_with_resume []
        ⟨some ⟨some 10, none⟩, fun _ => GetR.stream [4] true, some []⟩
        (joinP RAW_DIRP (pys "2000.tar.gz")) (FS.mk [] [])).2 =
      Except.error DErr.incomplete) ∧
    ((download_with_resume []
        ⟨some ⟨some 10, none⟩, fun _ => GetR.stream [4, 6] true, some []⟩
        (joinP RAW_DIRP (pys "2000.tar.gz")) (FS.mk [] [])).2 = Except.ok ()) := by
  constructor
  · exact (C5_incomplete_error_iff []
      ⟨some ⟨some 10, none⟩, fun _ => GetR.stream [4] true, some []⟩
      (joinP RAW_DIRP (pys "2000.tar.gz")) (FS.mk [] []) ⟨some 10, none⟩ [4]
      rfl (fun _ => rfl)).1.mpr (by decide)
  · exact (C5_incomplete_error_iff []
      ⟨some ⟨some 10, none⟩, fun _ => GetR.stream [4, 6] true, some []⟩
      (joinP RAW_DIRP (pys "2000.tar.gz")) (FS.mk [] []) ⟨some 10, none⟩ [4, 6]
      rfl (fun _ => rfl)).2.mpr (by decide)

/-! ## Claim C10 -/

/-- C10: when the probe reports no `Content-Length` header (total taken
    as zero), the fetch can never raise the incomplete-transfer error;
    whenever the stream ends normally — with however many bytes,
    including none — the partial file is renamed onto the destination and
    the call reports success. -/
theorem C10_missing_length_publishes :
    ∀ (cwd : List PyStr) (srv : Server) (dest_path : PyStr) (fs : FS) (h : HeadR),
      srv.headOk = some h → h.contentLength = none →
      ((download_with_resume cwd srv dest_path fs).2 ≠ Except.error DErr.incomplete) ∧
      (∀ chunks, (∀ r, srv.body r = GetR.stream chunks true) →
        (download_with_resume cwd srv dest_path fs).2 = Except.ok () ∧
        ∃ fd, lookupFile (download_with_resume cwd srv dest_path fs).1
            (realpathC cwd dest_path) = some fd ∧
          fd.size = resumeBase cwd dest_path fs h +
            chunks.foldl (fun a b => a + b) 0) := by
  intro cwd srv dest_path fs h hh hcl
  have htot : h.contentLength.getD 0 = 0 := by rw [hcl]; rfl
  constructor
  · unfold download_with_resume
    rw [hh]
    simp only [dlHead]
    cases hb : srv.body (if partSize cwd dest_path fs > 0 then
        some (partSize cwd dest_path fs) else none) with
    | fail =>
      intro hc
      exact absurd hc (by simp [dlStream])
    | stream chunks complete =>
      cases complete with
      | false =>
        rw [dlStream_streamFail]
        intro hc
        cases hc
      | true =>
        rw [dlStream_ok _ _ _ _ _ _ _ _ (by rw [htot]; simp)]
        intro hc
        cases hc
  · intro chunks hbody
    unfold download_with_resume
    rw [hh]
    simp only [dlHead]
    rw [hbody]
    rw [dlStream_ok _ _ _ _ _ _ _ _ (by rw [htot]; simp)]
    exact ⟨rfl, _, lookupFile_setFile_self _ _ _, rfl⟩

/-- C10, witness: a server with no `Content-Length` whose stream ends
    after zero bytes still publishes the (empty) destination file
    successfully. -/
theorem C10_witness :
    ((download_with_resume [] ⟨some ⟨none, none⟩, fun _ => GetR.stream [] true, some []⟩
        (joinP RAW_DIRP (pys "2000.tar.gz")) (FS.mk [] [])).2 = Except.ok ()) ∧
    (∃ fd, lookupFile (download_with_resume []
        ⟨some ⟨none, none⟩, fun _ => GetR.stream [] true, some []⟩
        (joinP RAW_DIRP (pys "2000.tar.gz")) (FS.mk [] [])).1
        (realpathC [] (joinP RAW_DIRP (pys "2000.tar.gz"))) = some fd ∧
      fd.size = resumeBase [] (joinP RAW_DIRP (pys "2000.tar.gz")) (FS.mk [] [])
          ⟨none, none⟩ + ([] : List Nat).foldl (fun a b => a + b) 0) :=
  (C10_missing_length_publishes [] ⟨some ⟨none, none⟩, fun _ => GetR.stream [] true, some []⟩
    (joinP RAW_DIRP (pys "2000.tar.gz")) (FS.mk [] []) ⟨none, none⟩ rfl rfl).2 []
    (fun _ => rfl)

/-! ## Claim C4 -/

/-- C4: when the probe reports no range support (`Accept-Ranges` absent
    or `"none"`) and the server's response does not depend on the `Range`
    header (which is what "does not support byte ranges" means — the code
    still sends the stale `Range` header in this case), the fetch behaves
    on the destination exactly as if the pre-existing partial file had
    been deleted first: same outcome, same destination entry — a full
    fresh download.  Moreover any published file consists of exactly the
    bytes of the fresh response body: never old partial bytes
    concatenated with new ones, never a stream starting at a nonzero
    offset. -/
theorem C4_nonresumable_fresh :
    ∀ (cwd : List PyStr) (srv : Server) (dest_path : PyStr) (fs : FS) (h : HeadR),
      srv.headOk = some h →
      h.acceptRanges.getD noneStr = noneStr →
      (∀ r r', srv.body r = srv.body r') →
      realpathC cwd (dest_path ++ pys ".part") ≠ realpathC cwd dest_path →
      ((download_with_resume cwd srv dest_path fs).2 =
        (download_with_resume cwd srv dest_path
          (removeFile fs (realpathC cwd (dest_path ++ pys ".part")))).2) ∧
      (lookupFile (download_with_resume cwd srv dest_path fs).1 (realpathC cwd dest_path) =
        lookupFile (download_with_resume cwd srv dest_path
          (removeFile fs (realpathC cwd (dest_path ++ pys ".part")))).1
          (realpathC cwd dest_path)) ∧
      (∀ chunks complete, srv.body none = GetR.stream chunks complete →
        (download_with_resume cwd srv dest_path fs).2 = Except.ok () →
        ∃ fd, lookupFile (download_with_resume cwd srv dest_path fs).1
            (realpathC cwd dest_path) = some fd ∧
          fd.size = chunks.foldl (fun a b => a + b) 0) := by
  intro cwd srv dest_path fs h hh hnr hins hne
  have hds : realpathC cwd dest_path ≠ realpathC cwd (dest_path ++ pys ".part") := Ne.symm hne
  have hP' : partSize cwd dest_path (removeFile fs (realpathC cwd (dest_path ++ pys ".part")))
      = 0 := by
    unfold partSize
    rw [lookupFile_removeFile_self]
    rfl
  have hbL : srv.body (if partSize cwd dest_path fs > 0 then
      some (partSize cwd dest_path fs) else none) = srv.body none := hins _ _
  unfold download_with_resume
  rw [hh]
  simp only [dlHead]
  rw [hbL, hP']
  rw [show (if (0 : Nat) > 0 then some (0 : Nat) else none) = (none : Option Nat) by simp]
  rw [show (if partSize cwd dest_path fs > 0 ∧ h.acceptRanges.getD noneStr ≠ noneStr then
      partSize cwd dest_path fs else 0) = 0 by
    rw [if_neg]
    intro hc
    exact hc.2 hnr]
  rw [show (if (0 : Nat) > 0 ∧ h.acceptRanges.getD noneStr ≠ noneStr then (0 : Nat) else 0)
      = 0 by simp]
  cases hb : srv.body none with
  | fail =>
    refine ⟨rfl, ?_, ?_⟩
    · rw [show (dlStream cwd dest_path (dest_path ++ pys ".part") 0 (h.contentLength.getD 0)
          srv.servedView fs GetR.fail).1 = fs from rfl,
        show (dlStream cwd dest_path (dest_path ++ pys ".part") 0 (h.contentLength.getD 0)
          srv.servedView (removeFile fs (realpathC cwd (dest_path ++ pys ".part")))
          GetR.fail).1 = removeFile fs (realpathC cwd (dest_path ++ pys ".part")) from rfl]
      rw [lookupFile_removeFile_ne _ _ _ hds]
    · intro chunks complete hbc
      cases hbc
  | stream chunks complete =>
    cases complete with
    | false =>
      rw [dlStream_streamFail, dlStream_streamFail]
      refine ⟨rfl, ?_, ?_⟩
      · rw [lookupFile_setFile_ne _ _ _ _ hds, lookupFile_setFile_ne _ _ _ _ hds,
          lookupFile_mkdirs, lookupFile_mkdirs, lookupFile_removeFile_ne _ _ _ hds]
      · intro chunks' complete' hbc hok
        cases hok
    | true =>
      by_cases hinc : h.contentLength.getD 0 ≠ 0 ∧
          0 + chunks.foldl (fun a b => a + b) 0 < h.contentLength.getD 0
      · rw [dlStream_incomplete _ _ _ _ _ _ _ _ hinc, dlStream_incomplete _ _ _ _ _ _ _ _ hinc]
        refine ⟨rfl, ?_, ?_⟩
        · rw [lookupFile_setFile_ne _ _ _ _ hds, lookupFile_setFile_ne _ _ _ _ hds,
            lookupFile_mkdirs, lookupFile_mkdirs, lookupFile_removeFile_ne _ _ _ hds]
        · intro chunks' complete' hbc hok
          cases hok
      · rw [dlStream_ok _ _ _ _ _ _ _ _ hinc, dlStream_ok _ _ _ _ _ _ _ _ hinc]
        refine ⟨rfl, ?_, ?_⟩
        · rw [lookupFile_setFile_self, lookupFile_setFile_self]
        · intro chunks' complete' hbc _
          injection hbc with hc1 hc2
          subst hc1
          exact ⟨_, lookupFile_setFile_self _ _ _, by simp⟩

/-- Fixture: a server that does not support ranges and serves six bytes. -/
def c4Srv : Server := ⟨some ⟨some 6, none⟩, fun _ => GetR.stream [6] true, some []⟩

/-- Fixture: a filesystem holding a four-byte partial file. -/
def c4Fs : FS :=
  setFile (FS.mk [] [])
    (realpathC [] (joinP RAW_DIRP (pys "2000.tar.gz") ++ pys ".part")) ⟨4, none⟩

/-- C4, witness: with a four-byte partial file and a non-resumable
    six-byte server, the fetch behaves like a fresh download and the
    published file holds exactly the six fresh bytes. -/
theorem C4_witness :
    ((download_with_resume [] c4Srv (joinP RAW_DIRP (pys "2000.tar.gz")) c4Fs).2 =
      (download_with_resume [] c4Srv (joinP RAW_DIRP (pys "2000.tar.gz"))
        (removeFile c4Fs (realpathC []
          (joinP RAW_DIRP (pys "2000.tar.gz") ++ pys ".part")))).2) ∧
    (∃ fd, lookupFile (download_with_resume [] c4Srv
        (joinP RAW_DIRP (pys "2000.tar.gz")) c4Fs).1
        (realpathC [] (joinP RAW_DIRP (pys "2000.tar.gz"))) = some fd ∧ fd.size = 6) := by
  have h1 := C4_nonresumable_fresh [] c4Srv (joinP RAW_DIRP (pys "2000.tar.gz")) c4Fs
    ⟨some 6, none⟩ rfl rfl (fun _ _ => rfl) (by decide)
  refine ⟨h1.1, ?_⟩
  obtain ⟨fd, hfd, hsz⟩ := h1.2.2 [6] true rfl (by decide)
  exact ⟨fd, hfd, hsz.trans (by decide)⟩

/-! ## Claim C6 -/

theorem lookupFile_congr_files (fs1 fs2 : FS) (p : List PyStr) (h : fs1.files = fs2.files) :
    lookupFile fs1 p = lookupFile fs2 p := by
  unfold lookupFile
  rw [h]

theorem extract_fold_allPresent (cwd : List PyStr) (out : PyStr) :
    ∀ (ms : List TarMember) (st : ExtractSt),
    (∀ m ∈ ms, m.kind = MKind.reg →
      is_safe_path cwd out (joinP out (lstripSlash m.name)) = true →
      (lookupFile st.fs (realpathC cwd (joinP out (lstripSlash m.name)))).map
        (fun fd => fd.size) = some m.size) →
    (ms.foldl (extractStep cwd out) st).fs.files = st.fs.files ∧
    (ms.foldl (extractStep cwd out) st).count = st.count ∧
    (ms.foldl (extractStep cwd out) st).skipped = st.skipped +
      ms.countP (fun m => decide (m.kind = MKind.reg) &&
        is_safe_path cwd out (joinP out (lstripSlash m.name))) := by
  intro ms
  induction ms with
  | nil => intro st _; exact ⟨rfl, rfl, by simp⟩
  | cons m ms ih =>
    intro st hpres
    have hpres_m := hpres m (List.mem_cons_self _ _)
    have hpres_ms : ∀ m' ∈ ms, m'.kind = MKind.reg →
        is_safe_path cwd out (joinP out (lstripSlash m'.name)) = true →
        (lookupFile st.fs (realpathC cwd (joinP out (lstripSlash m'.name)))).map
          (fun fd => fd.size) = some m'.size :=
      fun m' hm' => hpres m' (List.mem_cons_of_mem m hm')
    rw [List.foldl_cons]
    have hfiles_step : (extractStep cwd out st m).fs.files = st.fs.files ∧
        (extractStep cwd out st m).count = st.count ∧
        (extractStep cwd out st m).skipped = st.skipped +
          (if decide (m.kind = MKind.reg) &&
            is_safe_path cwd out (joinP out (lstripSlash m.name)) then 1 else 0) := by
      by_cases hk : m.kind = MKind.other
      · rw [extractStep_other _ _ _ _ hk]
        have : decide (m.kind = MKind.reg) = false := by simp [hk]
        simp [this]
      · cases hs : is_safe_path cwd out (joinP out (lstripSlash m.name)) with
        | false =>
          rw [extractStep_escaping _ _ _ _ hk hs]
          simp
        | true =>
          by_cases hd : m.kind = MKind.dir
          · rw [extractStep_dir _ _ _ _ hd hs]
            have hreg : decide (m.kind = MKind.reg) = false := by simp [hd]
            refine ⟨rfl, rfl, ?_⟩
            simp [hreg]
          · have hr : m.kind = MKind.reg := by
              cases hmk : m.kind
              · rfl
              · exact absurd hmk hd
              · exact absurd hmk hk
            rw [extractStep_reg_skip _ _ _ _ hr hs (hpres_m hr hs)]
            simp [hr]
    obtain ⟨hf, hc, hk⟩ := hfiles_step
    have hpres_ms' : ∀ m' ∈ ms, m'.kind = MKind.reg →
        is_safe_path cwd out (joinP out (lstripSlash m'.name)) = true →
        (lookupFile (extractStep cwd out st m).fs
          (realpathC cwd (joinP out (lstripSlash m'.name)))).map
          (fun fd => fd.size) = some m'.size := by
      intro m' hm' h1 h2
      rw [lookupFile_congr_files _ st.fs _ hf]
      exact hpres_ms m' hm' h1 h2
    obtain ⟨ihf, ihc, ihk⟩ := ih (extractStep cwd out st m) hpres_ms'
    refine ⟨ihf.trans hf, ihc.trans hc, ?_⟩
    rw [ihk, hk, List.countP_cons]
    cases hp : (decide (m.kind = MKind.reg) &&
        is_safe_path cwd out (joinP out (lstripSlash m.name))) with
    | false => simp
    | true =>
      simp only [if_pos rfl]
      omega

theorem extract_year_tar_shortcircuit (cwd : List PyStr) (fs : FS) (tar_path year_dir : PyStr)
    (hc : hasChildren (mkdirs fs (realpathC cwd year_dir)) (realpathC cwd year_dir) = true) :
    extract_year_tar cwd fs tar_path year_dir =
      ⟨mkdirs fs (realpathC cwd year_dir),
        Except.ok (csvCount (mkdirs fs (realpathC cwd year_dir))
          (realpathC cwd year_dir))⟩ := by
  unfold extract_year_tar
  rw [if_pos hc]

/-- Fixture: two archive members with the same name and different sizes. -/
def c6Dup1 : TarMember := ⟨pys "a.csv", MKind.reg, 1⟩

/-- Fixture: second conflicting member. -/
def c6Dup2 : TarMember := ⟨pys "a.csv", MKind.reg, 2⟩

/-- Fixture: output root with its ancestors present. -/
def c6Fs0 : FS := FS.mk [] (realpathC [] (pys "/data/out")).inits

/-- Fixture: the output directory fully populated by a prior run of the
    same archive. -/
def c6Fs1 : FS := (safe_extract [] c6Fs0 [c6Dup1, c6Dup2] (pys "/data/out")).fs

/-- C6, counterexample: an archive listing `a.csv` twice with different
    sizes (1 then 2).  After a full prior run the output directory is
    exactly what that run produced, yet re-running `safe_extract` against
    it performs two file writes (`count = 2`) and skips nothing —
    refuting "re-running extraction against an output directory fully
    populated by a prior run performs zero file writes and returns the
    same count of pre-existing matching files". -/
theorem C6_counterexample :
    (safe_extract [] c6Fs1 [c6Dup1, c6Dup2] (pys "/data/out")).count = 2 ∧
      (safe_extract [] c6Fs1 [c6Dup1, c6Dup2] (pys "/data/out")).skipped = 0 := by
  constructor
  · decide
  · decide

/-- C6, amended: (1) re-running `safe_extract` performs zero file writes
    and reports in `skipped` exactly the number of regular safe members,
    provided every regular safe member's destination already holds a file
    of exactly that member's size — which is what a prior run guarantees
    unless two members materialize the same destination with different
    sizes (the counterexample); (2) when the destination root for a
    period already contains any entry, `extract_year_tar` reports the
    archive as already extracted, writes no file, and never opens the
    archive (its result does not depend on the archive path); (3) within
    a fresh extraction, a regular member whose destination file already
    exists with the member's size is skipped. -/
theorem C6_idempotent_extraction :
    (∀ (cwd : List PyStr) (out_dir : PyStr) (fs : FS) (members : List TarMember),
      (∀ m ∈ members, m.kind = MKind.reg →
        is_safe_path cwd out_dir (joinP out_dir (lstripSlash m.name)) = true →
        (lookupFile fs (realpathC cwd (joinP out_dir (lstripSlash m.name)))).map
          (fun fd => fd.size) = some m.size) →
      (safe_extract cwd fs members out_dir).fs.files = fs.files ∧
      (safe_extract cwd fs members out_dir).count = 0 ∧
      (safe_extract cwd fs members out_dir).skipped =
        members.countP (fun m => decide (m.kind = MKind.reg) &&
          is_safe_path cwd out_dir (joinP out_dir (lstripSlash m.name)))) ∧
    (∀ (cwd : List PyStr) (fs : FS) (tar_path tar_path' year_dir : PyStr),
      hasChildren (mkdirs fs (realpathC cwd year_dir)) (realpathC cwd year_dir) = true →
      (extract_year_tar cwd fs tar_path year_dir).yfs.files = fs.files ∧
      (extract_year_tar cwd fs tar_path year_dir).out =
        Except.ok (csvCount (mkdirs fs (realpathC cwd year_dir)) (realpathC cwd year_dir)) ∧
      extract_year_tar cwd fs tar_path year_dir =
        extract_year_tar cwd fs tar_path' year_dir) ∧
    (∀ (cwd : List PyStr) (out_dir : PyStr) (st : ExtractSt) (m : TarMember),
      m.kind = MKind.reg →
      is_safe_path cwd out_dir (joinP out_dir (lstripSlash m.name)) = true →
      (lookupFile st.fs (realpathC cwd (joinP out_dir (lstripSlash m.name)))).map
        (fun fd => fd.size) = some m.size →
      extractStep cwd out_dir st m = { st with skipped := st.skipped + 1 }) := by
  refine ⟨?_, ?_, ?_⟩
  · intro cwd out_dir fs members hpres
    have h := extract_fold_allPresent cwd out_dir members (ExtractSt.mk fs 0 0 []) hpres
    unfold safe_extract
    exact ⟨h.1, h.2.1, by rw [h.2.2]; simp⟩
  · intro cwd fs tar_path tar_path' year_dir hc
    rw [extract_year_tar_shortcircuit cwd fs tar_path year_dir hc,
      extract_year_tar_shortcircuit cwd fs tar_path' year_dir hc]
    exact ⟨rfl, rfl, rfl⟩
  · intro cwd out_dir st m h1 h2 h3
    exact extractStep_reg_skip cwd out_dir st m h1 h2 h3

/-- Fixture: one member already materialized with its exact size. -/
def c6FsW : FS :=
  setFile c6Fs0 (realpathC [] (joinP (pys "/data/out") (pys "a.csv"))) ⟨1, none⟩

/-- Fixture: a populated year directory. -/
def c6FsY : FS :=
  setFile (FS.mk [] [])
    (realpathC [] (joinP EXTRACT_DIRP (pys "2000")) ++ [pys "x.csv"]) ⟨1, none⟩

/-- C6, witness: the amended theorem instantiated — a rerun over a
    directory where the single member is present with matching size
    writes nothing and skips one; a populated year directory
    short-circuits `extract_year_tar` regardless of the archive path; and
    the single-member skip equation holds concretely. -/
theorem C6_witness :
    ((safe_extract [] c6FsW [c6Dup1] (pys "/data/out")).fs.files = c6FsW.files ∧
      (safe_extract [] c6FsW [c6Dup1] (pys "/data/out")).count = 0 ∧
      (safe_extract [] c6FsW [c6Dup1] (pys "/data/out")).skipped =
        [c6Dup1].countP (fun m => decide (m.kind = MKind.reg) &&
          is_safe_path [] (pys "/data/out") (joinP (pys "/data/out") (lstripSlash m.name)))) ∧
    (extract_year_tar [] c6FsY c1TarP (joinP EXTRACT_DIRP (pys "2000")) =
      extract_year_tar [] c6FsY (pys "/nonexistent.tar.gz")
        (joinP EXTRACT_DIRP (pys "2000"))) ∧
    (extractStep [] (pys "/data/out") (ExtractSt.mk c6FsW 0 0 []) c6Dup1 =
      { ExtractSt.mk c6FsW 0 0 [] with skipped := 0 + 1 }) := by
  refine ⟨?_, ?_, ?_⟩
  · exact C6_idempotent_extraction.1 [] (pys "/data/out") c6FsW [c6Dup1] (by decide)
  · exact (C6_idempotent_extraction.2.1 [] c6FsY c1TarP (pys "/nonexistent.tar.gz")
      (joinP EXTRACT_DIRP (pys "2000")) (by decide)).2.2
  · exact C6_idempotent_extraction.2.2 [] (pys "/data/out") (ExtractSt.mk c6FsW 0 0 [])
      c6Dup1 (by decide) (by decide) (by decide)

/-! ## Claim C7 -/

theorem lexLe_refl (l : PyStr) : lexLe l l = true := by
  induction l with
  | nil => rfl
  | cons a as ih => simp [lexLe, ih]

theorem lexLe_cons_iff (x y : Char) (xs ys : PyStr) :
    lexLe (x :: xs) (y :: ys) = true ↔ (x < y ∨ (x = y ∧ lexLe xs ys = true)) := by
  show (if x < y then true else if x = y then lexLe xs ys else false) = true ↔ _
  by_cases h1 : x < y
  · rw [if_pos h1]
    simp [h1]
  · rw [if_neg h1]
    by_cases h2 : x = y
    · rw [if_pos h2]
      simp [h1, h2]
    · rw [if_neg h2]
      simp [h1, h2]

theorem lexLe_trans : ∀ (a b c : PyStr), lexLe a b = true → lexLe b c = true →
    lexLe a c = true := by
  intro a
  induction a with
  | nil => intro b c _ _; rfl
  | cons x xs ih =>
    intro b c hab hbc
    cases b with
    | nil => cases hab
    | cons y ys =>
      cases c with
      | nil => cases hbc
      | cons z zs =>
        rw [lexLe_cons_iff] at hab hbc ⊢
        rcases hab with h1 | ⟨h1, h1'⟩
        · rcases hbc with h2 | ⟨h2, _⟩
          · exact Or.inl (lt_trans h1 h2)
          · exact Or.inl (h2 ▸ h1)
        · rcases hbc with h2 | ⟨h2, h2'⟩
          · exact Or.inl (h1 ▸ h2)
          · exact Or.inr ⟨h1.trans h2, ih ys zs h1' h2'⟩

theorem lexLe_total : ∀ (a b : PyStr), (lexLe a b || lexLe b a) = true := by
  intro a
  induction a with
  | nil => intro b; rfl
  | cons x xs ih =>
    intro b
    cases b with
    | nil => rfl
    | cons y ys =>
      rcases lt_trichotomy x y with h | h | h
      · simp [lexLe_cons_iff, h]
      · have := ih ys
        rw [Bool.or_eq_true] at this ⊢
        rcases this with h' | h'
        · exact Or.inl ((lexLe_cons_iff _ _ _ _).mpr (Or.inr ⟨h, h'⟩))
        · exact Or.inr ((lexLe_cons_iff _ _ _ _).mpr (Or.inr ⟨h.symm, h'⟩))
      · simp [lexLe_cons_iff, h]

theorem pairwise_le_getLast : ∀ (l : List PyStr) (hl : l ≠ []),
    l.Pairwise (fun a b => lexLe a b = true) → ∀ x ∈ l, lexLe x (l.getLast hl) = true := by
  intro l
  induction l with
  | nil => intro hl; exact absurd rfl hl
  | cons a t ih =>
    intro _ hp x hx
    cases t with
    | nil =>
      rcases List.mem_singleton.mp hx with h
      rw [h]
      exact lexLe_refl _
    | cons b t' =>
      rw [List.getLast_cons (by simp)]
      rcases List.mem_cons.mp hx with h | h
      · subst h
        exact (List.pairwise_cons.mp hp).1 _ (List.getLast_mem _)
      · exact ih (by simp) (List.pairwise_cons.mp hp).2 x h

instance : IsTrans PyStr lexR := ⟨fun a b c h1 h2 => lexLe_trans a b c h1 h2⟩

instance : IsTotal PyStr lexR :=
  ⟨fun a b => by
    have h := lexLe_total a b
    rw [Bool.or_eq_true] at h
    exact h⟩

theorem sortedSetLast_spec (l : List PyStr) (hl : l ≠ []) :
    sortedSetLast l ∈ l ∧ ∀ x ∈ l, lexLe x (sortedSetLast l) = true := by
  have hd : l.dedup ≠ [] := by
    intro hc
    cases l with
    | nil => exact hl rfl
    | cons a t =>
      have hmem0 : a ∈ (a :: t).dedup := List.mem_dedup.mpr (List.mem_cons_self a t)
      rw [hc] at hmem0
      cases hmem0
  have hperm := List.perm_insertionSort lexR l.dedup
  have hs : List.insertionSort lexR l.dedup ≠ [] := by
    intro hc
    apply hd
    have h2 : ([] : List PyStr).Perm l.dedup := hc ▸ hperm
    exact h2.symm.eq_nil
  have hmem : ∀ x, x ∈ List.insertionSort lexR l.dedup ↔ x ∈ l := by
    intro x
    rw [hperm.mem_iff, List.mem_dedup]
  have hsorted : (List.insertionSort lexR l.dedup).Pairwise (fun a b => lexLe a b = true) :=
    List.sorted_insertionSort lexR l.dedup
  have hlast : sortedSetLast l = (List.insertionSort lexR l.dedup).getLast hs := by
    unfold sortedSetLast
    rw [List.getLastD_eq_getLast? ([] : PyStr) (List.insertionSort lexR l.dedup),
      List.getLast?_eq_getLast (List.insertionSort lexR l.dedup) hs]
    rfl
  constructor
  · rw [hlast]
    exact (hmem _).mp (List.getLast_mem hs)
  · intro x hx
    rw [hlast]
    exact pairwise_le_getLast _ hs hsorted x ((hmem x).mpr hx)

/-- C7: `pick_filename_for_year` is a function of the listing text and
    the year (determinism is inherent: the embedding is pure and the two
    `findall` scans read nothing else); it returns a plain-pattern match
    when one exists — namely the lexicographically last plain candidate —
    otherwise the lexicographically last decorated-pattern match when one
    exists, otherwise nothing. -/
theorem C7_listing_resolution :
    ∀ (index_html : PyStr) (year : Nat),
      (reFindAll (matchPlainAt year) index_html ≠ [] →
        ∃ r, pick_filename_for_year index_html year = some r ∧
          r ∈ reFindAll (matchPlainAt year) index_html ∧
          ∀ x ∈ reFindAll (matchPlainAt year) index_html, lexLe x r = true) ∧
      (reFindAll (matchPlainAt year) index_html = [] →
        reFindAll (matchDecorAt year) index_html ≠ [] →
        ∃ r, pick_filename_for_year index_html year = some r ∧
          r ∈ reFindAll (matchDecorAt year) index_html ∧
          ∀ x ∈ reFindAll (matchDecorAt year) index_html, lexLe x r = true) ∧
      (reFindAll (matchPlainAt year) index_html = [] →
        reFindAll (matchDecorAt year) index_html = [] →
        pick_filename_for_year index_html year = none) := by
  intro index_html year
  refine ⟨?_, ?_, ?_⟩
  · intro h1
    obtain ⟨hm, hmax⟩ := sortedSetLast_spec _ h1
    refine ⟨sortedSetLast (reFindAll (matchPlainAt year) index_html), ?_, hm, hmax⟩
    unfold pick_filename_for_year
    rw [if_pos h1]
  · intro h1 h2
    obtain ⟨hm, hmax⟩ := sortedSetLast_spec _ h2
    refine ⟨sortedSetLast (reFindAll (matchDecorAt year) index_html), ?_, hm, hmax⟩
    unfold pick_filename_for_year
    rw [if_neg (by simp [h1]), if_pos h2]
  · intro h1 h2
    unfold pick_filename_for_year
    rw [if_neg (by simp [h1]), if_neg (by simp [h2])]

/-- C7, witness: a listing containing `2000.tar.gz` twice and a
    decorated alternative resolves to the plain name, and its resolution
    is the lexicographic maximum of the plain candidates. -/
theorem C7_witness :
    ∃ r, pick_filename_for_year
        (pys ">2000.tar.gz< >2000.tar.gz< >isd_2000_lite_csv.tar.gz<") 2000 = some r ∧
      r ∈ reFindAll (matchPlainAt 2000)
        (pys ">2000.tar.gz< >2000.tar.gz< >isd_2000_lite_csv.tar.gz<") ∧
      ∀ x ∈ reFindAll (matchPlainAt 2000)
        (pys ">2000.tar.gz< >2000.tar.gz< >isd_2000_lite_csv.tar.gz<"), lexLe x r = true :=
  (C7_listing_resolution
    (pys ">2000.tar.gz< >2000.tar.gz< >isd_2000_lite_csv.tar.gz<") 2000).1 (by decide)

/-! ## Claim C8 -/

theorem jobAfterDl_dflag (cwd : List PyStr) (raw_path year_dir : PyStr) (d : Bool) (fs1 : FS)
    (e : Except DErr Unit) : (jobAfterDl cwd raw_path year_dir d fs1 e).downloadedFlag = d := by
  cases e with
  | error _ => rfl
  | ok _ =>
    simp only [jobAfterDl, jobAfterVerify]
    by_cases hv : verify_gzip cwd fs1 raw_path = true
    · rw [if_neg (by simp [hv])]
      cases hE : extract_year_tar cwd fs1 raw_path year_dir with
      | mk fs2 out2 =>
        cases out2 with
        | error _ => rfl
        | ok _ => rfl
    · rw [if_pos (by simpa using hv)]

theorem jobAfterDl_not_already (cwd : List PyStr) (raw_path year_dir : PyStr) (d : Bool)
    (fs1 : FS) (e : Except DErr Unit) (n : Nat) :
    (jobAfterDl cwd raw_path year_dir d fs1 e).out ≠ Outcome.alreadyO n := by
  cases e with
  | error _ => intro hc; cases hc
  | ok _ =>
    simp only [jobAfterDl, jobAfterVerify]
    by_cases hv : verify_gzip cwd fs1 raw_path = true
    · rw [if_neg (by simp [hv])]
      cases hE : extract_year_tar cwd fs1 raw_path year_dir with
      | mk fs2 out2 =>
        cases out2 with
        | error _ => intro hc; cases hc
        | ok _ => intro hc; cases hc
    · rw [if_pos (by simpa using hv)]
      intro hc
      cases hc

theorem jobAfterDl_corrupted_deleted (cwd : List PyStr) (raw_path year_dir : PyStr) (d : Bool)
    (fs1 : FS) (e : Except DErr Unit)
    (hout : (jobAfterDl cwd raw_path year_dir d fs1 e).out = Outcome.corruptedO) :
    lookupFile (jobAfterDl cwd raw_path year_dir d fs1 e).jfs (realpathC cwd raw_path)
      = none := by
  cases e with
  | error _ => cases hout
  | ok _ =>
    simp only [jobAfterDl, jobAfterVerify] at hout ⊢
    by_cases hv : verify_gzip cwd fs1 raw_path = true
    · rw [if_neg (by simp [hv])] at hout ⊢
      cases hE : extract_year_tar cwd fs1 raw_path year_dir with
      | mk fs2 out2 =>
        rw [hE] at hout
        cases out2 with
        | error _ => cases hout
        | ok _ => cases hout
    · rw [if_pos (by simpa using hv)] at hout ⊢
      exact lookupFile_removeFile_self _ _

/-- C8: (a) `verify_gzip` returns a Boolean and reports `False` exactly
    when opening the archive and reading its member table raises (missing
    file, truncated or malformed archive); (b) whenever a job's outcome
    is `corrupted`, the local archive file has been deleted in the
    resulting filesystem; (c) a subsequent run for the same period, with
    the archive absent and the period's output directory still
    unpopulated, resolves the same filename, takes the download branch
    (it does not report the period as already done), so the download is
    re-attempted rather than skipped. -/
theorem C8_corruption_handling :
    (∀ (cwd : List PyStr) (fs : FS) (path : PyStr),
      (verify_gzip cwd fs path = false ↔ openTar cwd fs path = none)) ∧
    (∀ (cwd : List PyStr) (srv : Server) (index_html : PyStr) (year : Nat) (fs : FS)
        (fn : PyStr),
      pick_filename_for_year index_html year = some fn →
      (process_one_year cwd srv index_html year fs).out = Outcome.corruptedO →
      lookupFile (process_one_year cwd srv index_html year fs).jfs
        (realpathC cwd (joinP RAW_DIRP fn)) = none) ∧
    (∀ (cwd : List PyStr) (srv : Server) (index_html : PyStr) (year : Nat) (fs : FS)
        (fn : PyStr),
      pick_filename_for_year index_html year = some fn →
      hasChildren fs (realpathC cwd (joinP EXTRACT_DIRP (natChars year))) = false →
      lookupFile fs (realpathC cwd (joinP RAW_DIRP fn)) = none →
      (process_one_year cwd srv index_html year fs).downloadedFlag = true ∧
      ∀ n, (process_one_year cwd srv index_html year fs).out ≠ Outcome.alreadyO n) := by
  refine ⟨?_, ?_, ?_⟩
  · intro cwd fs path
    unfold verify_gzip
    cases h : openTar cwd fs path with
    | none => simp
    | some _ => simp
  · intro cwd srv index_html year fs fn hpick hout
    have hpe : process_one_year cwd srv index_html year fs = jobResolved cwd srv year fs fn := by
      unfold process_one_year
      rw [hpick]
    rw [hpe] at hout ⊢
    simp only [jobResolved] at hout ⊢
    by_cases hA : (existsP fs (realpathC cwd (joinP EXTRACT_DIRP (natChars year))) &&
        hasChildren fs (realpathC cwd (joinP EXTRACT_DIRP (natChars year)))) = true
    · rw [if_pos hA] at hout
      cases hout
    · rw [if_neg hA] at hout ⊢
      by_cases hC : (lookupFile fs (realpathC cwd (joinP RAW_DIRP fn))).isSome = true
      · rw [if_pos hC] at hout ⊢
        exact jobAfterDl_corrupted_deleted _ _ _ _ _ _ hout
      · rw [if_neg hC] at hout ⊢
        exact jobAfterDl_corrupted_deleted _ _ _ _ _ _ hout
  · intro cwd srv index_html year fs fn hpick hnc hraw
    have hpe : process_one_year cwd srv index_html year fs = jobResolved cwd srv year fs fn := by
      unfold process_one_year
      rw [hpick]
    rw [hpe]
    simp only [jobResolved]
    rw [if_neg (by simp [hnc])]
    rw [if_neg (by simp [hraw])]
    exact ⟨jobAfterDl_dflag _ _ _ _ _ _, fun n => jobAfterDl_not_already _ _ _ _ _ _ n⟩

/-- Fixture: a cached but corrupt archive for the year 2000 (present on
    disk, opening it raises), with the extraction root still empty. -/
def c8Fs : FS :=
  setFile (mkdirs (mkdirs (FS.mk [] []) (realpathC [] RAW_DIRP)) (realpathC [] EXTRACT_DIRP))
    (realpathC [] (joinP RAW_DIRP (pys "2000.tar.gz"))) ⟨7, none⟩

/-- Fixture: a listing resolving the year 2000. -/
def c8Idx : PyStr := pys ">2000.tar.gz<"

/-- Fixture: a server that is down (so a re-attempted download is
    observable as the download branch being taken and failing). -/
def c8Srv : Server := ⟨none, fun _ => GetR.fail, none⟩

/-- C8, witness: on the corrupt cached archive the job reports
    `corrupted` and deletes the file; the immediately following run takes
    the download branch (it does not report the period as already done);
    and the verifier's exception-to-`False` characterization holds at the
    fixture. -/
theorem C8_witness :
    (lookupFile (process_one_year [] c8Srv c8Idx 2000 c8Fs).jfs
        (realpathC [] (joinP RAW_DIRP (pys "2000.tar.gz"))) = none) ∧
      ((process_one_year [] c8Srv c8Idx 2000
          (process_one_year [] c8Srv c8Idx 2000 c8Fs).jfs).downloadedFlag = true) ∧
      (verify_gzip [] c8Fs (joinP RAW_DIRP (pys "2000.tar.gz")) = false ↔
        openTar [] c8Fs (joinP RAW_DIRP (pys "2000.tar.gz")) = none) := by
  refine ⟨?_, ?_, ?_⟩
  · exact C8_corruption_handling.2.1 [] c8Srv c8Idx 2000 c8Fs (pys "2000.tar.gz")
      (by decide) (by decide)
  · exact (C8_corruption_handling.2.2 [] c8Srv c8Idx 2000
      (process_one_year [] c8Srv c8Idx 2000 c8Fs).jfs (pys "2000.tar.gz")
      (by decide) (by decide) (by decide)).1
  · exact C8_corruption_handling.1 [] c8Fs (joinP RAW_DIRP (pys "2000.tar.gz"))

/-! ## Claim C9 -/

theorem cleanupStep_dirs (cwd : List PyStr) (fs : FS) (c : PyStr) :
    (cleanupStep cwd fs c).dirs = fs.dirs := by
  simp only [cleanupStep]
  by_cases h : (lookupFile fs (realpathC cwd (joinP RAW_DIRP c))).isSome = true
  · rw [if_pos h]; rfl
  · rw [if_neg h]

theorem cleanupStep_lookup (cwd : List PyStr) (fs : FS) (c : PyStr) (p : List PyStr) :
    lookupFile (cleanupStep cwd fs c) p = lookupFile fs p ∨
      (lookupFile (cleanupStep cwd fs c) p = none ∧
        p = realpathC cwd (joinP RAW_DIRP c)) := by
  simp only [cleanupStep]
  by_cases h : (lookupFile fs (realpathC cwd (joinP RAW_DIRP c))).isSome = true
  · rw [if_pos h]
    by_cases hp : p = realpathC cwd (joinP RAW_DIRP c)
    · subst hp
      exact Or.inr ⟨lookupFile_removeFile_self _ _, rfl⟩
    · exact Or.inl (lookupFile_removeFile_ne _ _ _ hp)
  · rw [if_neg h]
    exact Or.inl rfl

theorem cleanupStep_none (cwd : List PyStr) (fs : FS) (c : PyStr) (p : List PyStr)
    (h : lookupFile fs p = none) : lookupFile (cleanupStep cwd fs c) p = none := by
  rcases cleanupStep_lookup cwd fs c p with h1 | h1
  · rw [h1, h]
  · exact h1.1

theorem rmFold_dirs (cwd : List PyStr) : ∀ (cands : List PyStr) (fs : FS),
    (cands.foldl (cleanupStep cwd) fs).dirs = fs.dirs := by
  intro cands
  induction cands with
  | nil => intro fs; rfl
  | cons c cs ih =>
    intro fs
    rw [List.foldl_cons, ih (cleanupStep cwd fs c), cleanupStep_dirs]

theorem rmFold_none (cwd : List PyStr) : ∀ (cands : List PyStr) (fs : FS) (p : List PyStr),
    lookupFile fs p = none → lookupFile (cands.foldl (cleanupStep cwd) fs) p = none := by
  intro cands
  induction cands with
  | nil => intro fs p h; exact h
  | cons c cs ih =>
    intro fs p h
    rw [List.foldl_cons]
    exact ih _ p (cleanupStep_none cwd fs c p h)

theorem rmFold_lookup (cwd : List PyStr) : ∀ (cands : List PyStr) (fs : FS) (p : List PyStr),
    lookupFile (cands.foldl (cleanupStep cwd) fs) p = lookupFile fs p ∨
      (lookupFile (cands.foldl (cleanupStep cwd) fs) p = none ∧
        ∃ c ∈ cands, p = realpathC cwd (joinP RAW_DIRP c)) := by
  intro cands
  induction cands with
  | nil => intro fs p; exact Or.inl rfl
  | cons c cs ih =>
    intro fs p
    rw [List.foldl_cons]
    rcases ih (cleanupStep cwd fs c) p with h1 | h1
    · rcases cleanupStep_lookup cwd fs c p with h2 | h2
      · exact Or.inl (h1.trans h2)
      · exact Or.inr ⟨h1.trans h2.1, c, List.mem_cons_self c cs, h2.2⟩
    · exact Or.inr ⟨h1.1, h1.2.elim (fun c' hc' =>
        ⟨c', List.mem_cons_of_mem c hc'.1, hc'.2⟩)⟩

theorem cleanupYear_dirs (cwd : List PyStr) (fs : FS) (y : Nat) :
    (cleanupYear cwd fs y).dirs = fs.dirs := by
  simp only [cleanupYear]
  rw [rmFold_dirs]
  by_cases h : (lookupFile fs
      (realpathC cwd (joinP RAW_DIRP (natChars y ++ pys ".tar.gz")))).isSome = true
  · rw [if_pos h]; rfl
  · rw [if_neg h]

theorem cleanupYear_lookup (cwd : List PyStr) (fs : FS) (y : Nat) (p : List PyStr) :
    lookupFile (cleanupYear cwd fs y) p = lookupFile fs p ∨
      (lookupFile (cleanupYear cwd fs y) p = none ∧
        (p = realpathC cwd (joinP RAW_DIRP (natChars y ++ pys ".tar.gz")) ∨
          ∃ nm, fullmatchDecor y nm = true ∧ p = realpathC cwd (joinP RAW_DIRP nm))) := by
  simp only [cleanupYear]
  by_cases h : (lookupFile fs
      (realpathC cwd (joinP RAW_DIRP (natChars y ++ pys ".tar.gz")))).isSome = true
  · rw [if_pos h]
    rcases rmFold_lookup cwd _ (removeFile fs
        (realpathC cwd (joinP RAW_DIRP (natChars y ++ pys ".tar.gz")))) p with h1 | h1
    · by_cases hp : p = realpathC cwd (joinP RAW_DIRP (natChars y ++ pys ".tar.gz"))
      · subst hp
        exact Or.inr ⟨h1.trans (lookupFile_removeFile_self _ _), Or.inl rfl⟩
      · exact Or.inl (h1.trans (lookupFile_removeFile_ne _ _ _ hp))
    · rcases h1.2 with ⟨c, hc, hpc⟩
      exact Or.inr ⟨h1.1, Or.inr ⟨c, (List.mem_filter.mp hc).2, hpc⟩⟩
  · rw [if_neg h]
    rcases rmFold_lookup cwd _ fs p with h1 | h1
    · exact Or.inl h1
    · rcases h1.2 with ⟨c, hc, hpc⟩
      exact Or.inr ⟨h1.1, Or.inr ⟨c, (List.mem_filter.mp hc).2, hpc⟩⟩

theorem cleanupYear_none (cwd : List PyStr) (fs : FS) (y : Nat) (p : List PyStr)
    (h : lookupFile fs p = none) : lookupFile (cleanupYear cwd fs y) p = none := by
  rcases cleanupYear_lookup cwd fs y p with h1 | h1
  · rw [h1, h]
  · exact h1.1

theorem cleanupYear_pat1 (cwd : List PyStr) (fs : FS) (y : Nat) :
    lookupFile (cleanupYear cwd fs y)
      (realpathC cwd (joinP RAW_DIRP (natChars y ++ pys ".tar.gz"))) = none := by
  simp only [cleanupYear]
  by_cases h : (lookupFile fs
      (realpathC cwd (joinP RAW_DIRP (natChars y ++ pys ".tar.gz")))).isSome = true
  · rw [if_pos h]
    exact rmFold_none cwd _ _ _ (lookupFile_removeFile_self _ _)
  · rw [if_neg h]
    exact rmFold_none cwd _ _ _ (Option.not_isSome_iff_eq_none.mp (by simpa using h))

theorem cleanupRun_dirs (cwd : List PyStr) : ∀ (years : List Nat) (fs : FS),
    (cleanupRun cwd fs years).dirs = fs.dirs := by
  intro years
  induction years with
  | nil => intro fs; rfl
  | cons y ys ih =>
    intro fs
    simp only [cleanupRun, List.foldl_cons] at ih ⊢
    rw [ih (cleanupYear cwd fs y), cleanupYear_dirs]

theorem cleanupRun_none (cwd : List PyStr) : ∀ (years : List Nat) (fs : FS) (p : List PyStr),
    lookupFile fs p = none → lookupFile (cleanupRun cwd fs years) p = none := by
  intro years
  induction years with
  | nil => intro fs p h; exact h
  | cons y ys ih =>
    intro fs p h
    simp only [cleanupRun, List.foldl_cons] at ih ⊢
    exact ih _ p (cleanupYear_none cwd fs y p h)

theorem cleanupRun_lookup (cwd : List PyStr) : ∀ (years : List Nat) (fs : FS) (p : List PyStr),
    lookupFile (cleanupRun cwd fs years) p = lookupFile fs p ∨
      (lookupFile (cleanupRun cwd fs years) p = none ∧
        ∃ y ∈ years,
          p = realpathC cwd (joinP RAW_DIRP (natChars y ++ pys ".tar.gz")) ∨
            ∃ nm, fullmatchDecor y nm = true ∧ p = realpathC cwd (joinP RAW_DIRP nm)) := by
  intro years
  induction years with
  | nil => intro fs p; exact Or.inl rfl
  | cons y ys ih =>
    intro fs p
    simp only [cleanupRun, List.foldl_cons] at ih ⊢
    rcases ih (cleanupYear cwd fs y) p with h1 | h1
    · rcases cleanupYear_lookup cwd fs y p with h2 | h2
      · exact Or.inl (h1.trans h2)
      · exact Or.inr ⟨h1.trans h2.1, y, List.mem_cons_self y ys, h2.2⟩
    · rcases h1.2 with ⟨y', hy', hp'⟩
      exact Or.inr ⟨h1.1, y', List.mem_cons_of_mem y hy', hp'⟩

theorem cleanupRun_pat1 (cwd : List PyStr) : ∀ (years : List Nat) (fs : FS) (y : Nat),
    y ∈ years →
    lookupFile (cleanupRun cwd fs years)
      (realpathC cwd (joinP RAW_DIRP (natChars y ++ pys ".tar.gz"))) = none := by
  intro years
  induction years with
  | nil => intro fs y h; cases h
  | cons y' ys ih =>
    intro fs y h
    simp only [cleanupRun, List.foldl_cons] at ih ⊢
    rcases List.mem_cons.mp h with h1 | h1
    · subst h1
      exact cleanupRun_none cwd ys _ _ (cleanupYear_pat1 cwd fs y)
    · exact ih _ y h1

theorem digitCh_ne_slash (d : Nat) (hd : d < 10) : digitCh d ≠ '/' := by
  interval_cases d <;> decide

theorem natCharsGo_no_slash : ∀ (fuel n : Nat), '/' ∉ natCharsGo fuel n := by
  intro fuel
  induction fuel with
  | zero => intro n h; cases h
  | succ f ih =>
    intro n h
    simp only [natCharsGo] at h
    by_cases hn : n < 10
    · rw [if_pos hn] at h
      rcases List.mem_singleton.mp h with h'
      exact digitCh_ne_slash n hn h'.symm
    · rw [if_neg hn] at h
      rcases List.mem_append.mp h with h' | h'
      · exact ih _ h'
      · rcases List.mem_singleton.mp h' with h''
        exact digitCh_ne_slash _ (Nat.mod_lt _ (by decide)) h''.symm

theorem natChars_no_slash (n : Nat) : '/' ∉ natChars n := natCharsGo_no_slash _ _

/-- The shape facts about a name accepted by the decorated `fullmatch`:
    it has no separator, is relative, and is none of the special
    components, so joining it under `RAW_DIR` and canonicalizing appends
    exactly one component. -/
theorem fullmatchDecor_shape (y : Nat) (nm : PyStr) (h : fullmatchDecor y nm = true) :
    '/' ∉ nm ∧ isAbsP nm = false ∧ nm ≠ [] ∧ nm ≠ ['.'] ∧ nm ≠ ['.', '.'] := by
  simp only [fullmatchDecor] at h
  cases hs : stripPfxP (pys "isd_" ++ natChars y ++ pys "_") nm with
  | none => rw [hs] at h; cases h
  | some rest =>
    rw [hs] at h
    simp only [stripPfxP] at hs
    by_cases hp : (pys "isd_" ++ natChars y ++ pys "_").isPrefixOf nm = true
    · rw [if_pos hp] at hs
      injection hs with hrest
      obtain ⟨t, ht⟩ := List.isPrefixOf_iff_prefix.mp hp
      have hpre : (pys "isd_" ++ natChars y ++ pys "_") ++ t
          = 'i' :: (pys "sd_" ++ natChars y ++ pys "_" ++ t) := by
        simp [pys, List.append_assoc]
      have hnm : nm = 'i' :: (pys "sd_" ++ natChars y ++ pys "_" ++ t) := by
        rw [← ht, hpre]
      have htrest : t = rest := by
        rw [← hrest, ← ht, List.drop_left]
      rw [Bool.and_eq_true] at h
      have hrest2 : rest.drop (rest.takeWhile isClassCh).length = pys ".tar.gz" := by
        have hb := h.2
        exact eq_of_beq hb
      have hpf : rest.takeWhile isClassCh <+: rest := List.takeWhile_prefix _
      obtain ⟨u, hu⟩ := hpf
      have hA := congrArg (List.drop (rest.takeWhile isClassCh).length) hu
      rw [List.drop_left] at hA
      rw [hrest2] at hA
      have hsplit : rest = rest.takeWhile isClassCh ++ pys ".tar.gz" := by
        rw [← hA]
        exact hu.symm
      refine ⟨?_, ?_, ?_, ?_, ?_⟩
      · intro hmem
        rw [← ht] at hmem
        rcases List.mem_append.mp hmem with h1 | h1
        · rcases List.mem_append.mp h1 with h2 | h2
          · rcases List.mem_append.mp h2 with h3 | h3
            · revert h3; decide
            · exact natChars_no_slash y h3
          · revert h2; decide
        · rw [htrest, hsplit] at h1
          rcases List.mem_append.mp h1 with h2 | h2
          · have := List.mem_takeWhile_imp h2
            revert this; decide
          · revert h2; decide
      · rw [hnm]; rfl
      · rw [hnm]; intro hc; cases hc
      · rw [hnm]; intro hc; injection hc with hc1; cases hc1
      · rw [hnm]; intro hc; injection hc with hc1; cases hc1
    · rw [if_neg hp] at hs; cases hs

/-- Joining a separator-free, non-special name under `RAW_DIR` and
    canonicalizing appends exactly that one component. -/
theorem realpathC_join_decor (cwd : List PyStr) (nm : PyStr) (h0 : '/' ∉ nm)
    (h1 : isAbsP nm = false) (h2 : nm ≠ []) (h3 : nm ≠ ['.']) (h4 : nm ≠ ['.', '.']) :
    realpathC cwd (joinP RAW_DIRP nm) = realpathC cwd RAW_DIRP ++ [nm] := by
  rw [join_canon cwd RAW_DIRP nm (by decide) h1, splitK_of_noSlash nm h0,
    resolveDots_append_good _ nm h2 h3 h4]
  have hraw : realpathC cwd RAW_DIRP = resolveDots (splitK RAW_DIRP) := by
    unfold realpathC
    rw [if_pos (by decide)]
    rfl
  rw [hraw]

/-- A file stored at a canonical direct-child path shows up in
    `os.listdir` of the parent. -/
theorem mem_childNames_of_file (fs : FS) (d : List PyStr) (nm : PyStr)
    (h : (lookupFile fs (d ++ [nm])).isSome = true) : nm ∈ childNames fs d := by
  simp only [lookupFile, Option.isSome_map] at h
  cases hf : fs.files.find? (fun e => decide (e.1 = d ++ [nm])) with
  | none => rw [hf] at h; cases h
  | some e =>
    have hpe := List.find?_some hf
    have he1 : e.1 = d ++ [nm] := by simpa using hpe
    have hmem : e ∈ fs.files := List.mem_of_find?_eq_some hf
    simp only [childNames, List.mem_dedup, List.mem_filterMap]
    refine ⟨d ++ [nm], List.mem_append.mpr (Or.inl ?_), ?_⟩
    · exact he1 ▸ List.mem_map_of_mem (fun e => e.1) hmem
    · simp only [childOf?]
      rw [if_pos (List.take_left d [nm]), List.drop_left]

theorem cleanupStep_self (cwd : List PyStr) (fs : FS) (c : PyStr) :
    lookupFile (cleanupStep cwd fs c) (realpathC cwd (joinP RAW_DIRP c)) = none := by
  simp only [cleanupStep]
  by_cases h : (lookupFile fs (realpathC cwd (joinP RAW_DIRP c))).isSome = true
  · rw [if_pos h]
    exact lookupFile_removeFile_self _ _
  · rw [if_neg h]
    exact Option.not_isSome_iff_eq_none.mp h

theorem rmFold_mem (cwd : List PyStr) : ∀ (cands : List PyStr) (fs : FS) (c : PyStr),
    c ∈ cands →
    lookupFile (cands.foldl (cleanupStep cwd) fs) (realpathC cwd (joinP RAW_DIRP c)) = none := by
  intro cands
  induction cands with
  | nil => intro fs c hc; cases hc
  | cons c' cs ih =>
    intro fs c hc
    rw [List.foldl_cons]
    rcases List.mem_cons.mp hc with h1 | h1
    · subst h1
      exact rmFold_none cwd cs _ _ (cleanupStep_self cwd fs c)
    · exact ih _ c h1

/-- The decorated-candidate loop of one year's cleanup removes the file
    at `RAW_DIR/nm` for every `fullmatch`-accepted name `nm`, as long as
    the accumulator holds no file the listed filesystem lacks. -/
theorem decor_fold_kill (cwd : List PyStr) (fs fs1 : FS) (y : Nat) (nm : PyStr)
    (hm : fullmatchDecor y nm = true)
    (hmono : ∀ p, (lookupFile fs1 p).isSome = true → (lookupFile fs p).isSome = true) :
    lookupFile
      (((childNames fs (realpathC cwd RAW_DIRP)).filter (fullmatchDecor y)).foldl
        (cleanupStep cwd) fs1)
      (realpathC cwd (joinP RAW_DIRP nm)) = none := by
  obtain ⟨h0, h1, h2, h3, h4⟩ := fullmatchDecor_shape y nm hm
  by_cases hq : (lookupFile fs1 (realpathC cwd (joinP RAW_DIRP nm))).isSome = true
  · have hfs := hmono _ hq
    rw [realpathC_join_decor cwd nm h0 h1 h2 h3 h4] at hfs
    have hcn : nm ∈ childNames fs (realpathC cwd RAW_DIRP) :=
      mem_childNames_of_file fs _ nm hfs
    exact rmFold_mem cwd _ fs1 nm (List.mem_filter.mpr ⟨hcn, hm⟩)
  · exact rmFold_none cwd _ _ _ (Option.not_isSome_iff_eq_none.mp hq)

theorem cleanupYear_decor (cwd : List PyStr) (fs : FS) (y : Nat) (nm : PyStr)
    (hm : fullmatchDecor y nm = true) :
    lookupFile (cleanupYear cwd fs y) (realpathC cwd (joinP RAW_DIRP nm)) = none := by
  simp only [cleanupYear]
  by_cases h : (lookupFile fs
      (realpathC cwd (joinP RAW_DIRP (natChars y ++ pys ".tar.gz")))).isSome = true
  · rw [if_pos h]
    refine decor_fold_kill cwd fs _ y nm hm ?_
    intro p hp
    by_cases hpk : p = realpathC cwd (joinP RAW_DIRP (natChars y ++ pys ".tar.gz"))
    · rw [hpk, lookupFile_removeFile_self] at hp
      cases hp
    · rw [lookupFile_removeFile_ne _ _ _ hpk] at hp
      exact hp
  · rw [if_neg h]
    exact decor_fold_kill cwd fs fs y nm hm (fun p hp => hp)

theorem cleanupRun_decor (cwd : List PyStr) : ∀ (years : List Nat) (fs : FS) (y : Nat)
    (nm : PyStr), y ∈ years → fullmatchDecor y nm = true →
    lookupFile (cleanupRun cwd fs years) (realpathC cwd (joinP RAW_DIRP nm)) = none := by
  intro years
  induction years with
  | nil => intro fs y nm h _; cases h
  | cons y' ys ih =>
    intro fs y nm h hm
    simp only [cleanupRun, List.foldl_cons] at ih ⊢
    rcases List.mem_cons.mp h with h1 | h1
    · subst h1
      exact cleanupRun_none cwd ys _ _ (cleanupYear_decor cwd fs y nm hm)
    · exact ih _ y nm h1 hm

/-- Fixture: a cached, well-formed archive for the year 2000 whose single
    member escapes the output root, so verification passes but extraction
    raises and the job ends in the `[ERR]` outcome. -/
def c9Fs : FS :=
  setFile (mkdirs (mkdirs (FS.mk [] []) (realpathC [] RAW_DIRP)) (realpathC [] EXTRACT_DIRP))
    (realpathC [] (joinP RAW_DIRP (pys "2000.tar.gz")))
    ⟨5, some [⟨pys "../evil", MKind.reg, 1⟩]⟩

/-- Fixture: a listing resolving the year 2000. -/
def c9Idx : PyStr := pys ">2000.tar.gz<"

/-- Fixture: the server is never contacted (the archive is cached). -/
def c9Srv : Server := ⟨none, fun _ => GetR.fail, none⟩

/-- C9, counterexample: with cleanup enabled, a run whose only year ends
    in the `[ERR]` outcome — its archive was verified but extraction
    failed, so the year was NOT successfully verified-and-extracted —
    still has its source archive deleted by the post-run cleanup, contrary
    to the claim that deletion happens only for successfully
    verified-and-extracted periods. -/
theorem C9_counterexample :
    (mainRun [] c9Srv c9Idx [2000] false c9Fs).2 = [(2000, Outcome.errO)] ∧
      lookupFile c9Fs (realpathC [] (joinP RAW_DIRP (pys "2000.tar.gz"))) ≠ none ∧
      lookupFile (mainRun [] c9Srv c9Idx [2000] false c9Fs).1
        (realpathC [] (joinP RAW_DIRP (pys "2000.tar.gz"))) = none := by
  refine ⟨by decide, by decide, by decide⟩

/-- Fixture: a cached decorated-name archive for the year 2000 (for
    exercising the decorated half of the cleanup pass). -/
def c9FsD : FS :=
  setFile (mkdirs (FS.mk [] []) (realpathC [] RAW_DIRP))
    (realpathC [] (joinP RAW_DIRP (pys "isd_2000_lite_csv.tar.gz"))) ⟨3, none⟩

/-- C9 (amended): when cleanup is enabled (`keep_tar = false`) the
    post-run loop, for EVERY period of the run regardless of its outcome:
    (a) never creates or modifies a file — each path is either untouched
    or deleted, and a deleted path is `RAW_DIR/{y}.tar.gz` or a
    `RAW_DIR` entry fully matching the decorated pattern for some run
    year `y`; (b) unconditionally deletes `RAW_DIR/{y}.tar.gz` for every
    run year `y` (cached archives of failed periods included, which is
    the deviation from the claim); (c) likewise unconditionally deletes
    `RAW_DIR/nm` for every name `nm` fully matching the decorated
    pattern of a run year, so no archive of either naming pattern is
    left behind; (d) leaves the directory structure untouched. -/
theorem C9_cleanup_behavior :
    (∀ (cwd : List PyStr) (fs : FS) (years : List Nat) (p : List PyStr),
      lookupFile (cleanupRun cwd fs years) p = lookupFile fs p ∨
        (lookupFile (cleanupRun cwd fs years) p = none ∧
          ∃ y ∈ years,
            p = realpathC cwd (joinP RAW_DIRP (natChars y ++ pys ".tar.gz")) ∨
              ∃ nm, fullmatchDecor y nm = true ∧
                p = realpathC cwd (joinP RAW_DIRP nm))) ∧
    (∀ (cwd : List PyStr) (fs : FS) (years : List Nat) (y : Nat), y ∈ years →
      lookupFile (cleanupRun cwd fs years)
        (realpathC cwd (joinP RAW_DIRP (natChars y ++ pys ".tar.gz"))) = none) ∧
    (∀ (cwd : List PyStr) (fs : FS) (years : List Nat) (y : Nat) (nm : PyStr), y ∈ years →
      fullmatchDecor y nm = true →
      lookupFile (cleanupRun cwd fs years)
        (realpathC cwd (joinP RAW_DIRP nm)) = none) ∧
    (∀ (cwd : List PyStr) (fs : FS) (years : List Nat),
      (cleanupRun cwd fs years).dirs = fs.dirs) := by
  refine ⟨?_, ?_, ?_, ?_⟩
  · intro cwd fs years p
    exact cleanupRun_lookup cwd years fs p
  · intro cwd fs years y hy
    exact cleanupRun_pat1 cwd years fs y hy
  · intro cwd fs years y nm hy hm
    exact cleanupRun_decor cwd years fs y nm hy hm
  · intro cwd fs years
    exact cleanupRun_dirs cwd years fs

/-- C9, witness: on the fixture runs, both the plain year-2000 archive
    path and a cached decorated-name archive (present beforehand) are
    deleted by the cleanup pass. -/
theorem C9_witness :
    (2000 ∈ [2000]) ∧
      lookupFile (cleanupRun [] c9Fs [2000])
        (realpathC [] (joinP RAW_DIRP (natChars 2000 ++ pys ".tar.gz"))) = none ∧
      fullmatchDecor 2000 (pys "isd_2000_lite_csv.tar.gz") = true ∧
      lookupFile c9FsD (realpathC [] (joinP RAW_DIRP (pys "isd_2000_lite_csv.tar.gz"))) ≠
        none ∧
      lookupFile (cleanupRun [] c9FsD [2000])
        (realpathC [] (joinP RAW_DIRP (pys "isd_2000_lite_csv.tar.gz"))) = none :=
  ⟨by decide, C9_cleanup_behavior.2.1 [] c9Fs [2000] 2000 (by decide), by decide, by decide,
    C9_cleanup_behavior.2.2.1 [] c9FsD [2000] 2000 (pys "isd_2000_lite_csv.tar.gz")
      (by decide) (by decide)⟩
